import Mathlib

/-!
# Benewake lidar serial transport: a shallow embedding of `Serial.cpp`

The development embeds the marker search `find_sequence`, the read loops
`Serial::receive(char*, size_t, bool)` and `Serial::nreceive_peek`, and the
connection management functions `closeSerial`, `_lockDevice`, `openSerial`
and `setBaudrate` of `src/benewake_ros2_driver/src/Serial.cpp`.

Conventions.

* A byte is a natural number standing for the 8-bit pattern stored in a `char`;
  the casts to `unsigned char` in `find_sequence` make the comparison a
  comparison of bit patterns, which is equality here.
* A memory region (`dest`, `tmp`, `peek`) is a list holding exactly the bytes
  of the region.  Every access goes through a checked operation: an index
  outside the region yields `none` (an out-of-bounds fault) instead of a value.
* Lengths of type `size_t` are natural numbers.  The counters `i` and `j` of
  `find_sequence` are `unsigned int`: in `find_sequence` they wrap at `2^32`.
  `find_sequence_nat` is the same search with counters that do not wrap; the two
  agree on every region shorter than `2^32` bytes (`find_sequence_eq_nat`), and
  `nreceive_peek` is written with `find_sequence_nat`.
* The descriptor is driven by a script: the list of what the successive
  `read()` calls find.  After the script the line is quiet (every further read
  would block).
-/

namespace Benewake

/-- The 8-bit pattern of one `char`. -/
abbrev Byte := Nat

/-- A computation over checked memory: `none` is an out-of-bounds access. -/
abbrev Checked (α : Type) := Option α

/-! ## `find_sequence` -/

/-- The number of values of an `unsigned int`: the counters of `find_sequence` wrap
to 0 when they reach it. -/
def UINT_RANGE : Nat := 4294967296

/-- How a call of `find_sequence` ends: it returns `haystack + off`, it returns
`nullptr`, or it does not return. -/
inductive Search
  | found (off : Nat)
  | null
  | never
deriving DecidableEq

/-- The result of the search with counters that do not wrap, as a result of
`find_sequence`. -/
def Search.ofOption : Option Nat → Search
  | some off => Search.found off
  | none => Search.null

/-- Inner loop of `find_sequence`:
`for (j = 0; j < needle_len && i + j < hay_len && haystack[i + j] == needle[j]; j++);`
with `i` and `j` of type `unsigned int`, so that `i + j` is taken modulo `2^32`.
The first argument is the number of increments left before `j` reaches `needle_len`
or wraps to 0 at `2^32`, whichever comes first, so `j < needle_len` is the successor
case.  The result is `some j`, the value of `j` when the loop stops, or `none` when
it does not stop: if `j` wraps, the three tests have passed for every value of `j` and
pass again in the same order on the same memory. -/
def find_sequence_inner (haystack : List Byte) (hay_len : Nat) (needle : List Byte)
    (needle_len i : Nat) : Nat → Nat → Checked (Option Nat)
  | 0, j => if needle_len < UINT_RANGE then some (some j) else some none
  | rem + 1, j =>
    if (i + j) % UINT_RANGE < hay_len then
      match haystack[(i + j) % UINT_RANGE]?, needle[j]? with
      | some a, some b =>
        if a = b then find_sequence_inner haystack hay_len needle needle_len i rem (j + 1)
        else some (some j)
      | _, _ => none
    else some (some j)

/-- Outer loop of `find_sequence`: `for (i = 0; i < hay_len; i++)` with `i` of type
`unsigned int`.  The first argument is the number of increments left before `i`
reaches `hay_len` or wraps to 0 at `2^32`, whichever comes first.  When `i` reaches
`hay_len` the function returns `nullptr`; when `i` wraps, the scan starts again at 0
on the same memory, where it found nothing, and the function does not return. -/
def find_sequence_outer (haystack : List Byte) (hay_len : Nat) (needle : List Byte)
    (needle_len : Nat) : Nat → Nat → Checked Search
  | 0, _ => if hay_len < UINT_RANGE then some Search.null else some Search.never
  | rem + 1, i =>
    match find_sequence_inner haystack hay_len needle needle_len i
        (min needle_len UINT_RANGE) 0 with
    | none => none
    | some none => some Search.never
    | some (some j) =>
      if j = needle_len ∨ ((i + j) % UINT_RANGE = hay_len ∧ j > 0) then some (Search.found i)
      else find_sequence_outer haystack hay_len needle needle_len rem (i + 1)

/-- The function `find_sequence(haystack, hay_len, needle, needle_len)`. -/
def find_sequence (haystack : List Byte) (hay_len : Nat) (needle : List Byte)
    (needle_len : Nat) : Checked Search :=
  find_sequence_outer haystack hay_len needle needle_len (min hay_len UINT_RANGE) 0

/-! ## The search with counters that do not wrap -/

/-- Inner loop of `find_sequence` with a counter `j` that does not wrap.  The first
argument is `needle_len - j`, so `j < needle_len` is the successor case.  The result
is the value of `j` when the loop stops. -/
def find_sequence_inner_nat (haystack : List Byte) (hay_len : Nat) (needle : List Byte) (i : Nat) :
    Nat → Nat → Checked Nat
  | 0, j => some j
  | rem + 1, j =>
    if i + j < hay_len then
      match haystack[i + j]?, needle[j]? with
      | some a, some b =>
        if a = b then find_sequence_inner_nat haystack hay_len needle i rem (j + 1) else some j
      | _, _ => none
    else some j

/-- Outer loop of `find_sequence` with a counter `i` that does not wrap.  The first
argument is `hay_len - i`.  The result is the offset of the returned pointer from
`haystack`, or `none` for `nullptr`. -/
def find_sequence_outer_nat (haystack : List Byte) (hay_len : Nat) (needle : List Byte)
    (needle_len : Nat) : Nat → Nat → Checked (Option Nat)
  | 0, _ => some none
  | rem + 1, i =>
    match find_sequence_inner_nat haystack hay_len needle i needle_len 0 with
    | none => none
    | some j =>
      if j = needle_len ∨ (i + j = hay_len ∧ j > 0) then some (some i)
      else find_sequence_outer_nat haystack hay_len needle needle_len rem (i + 1)

/-- The search of `find_sequence` with counters that do not wrap: what
`find_sequence` returns on every region shorter than `2^32` bytes. -/
def find_sequence_nat (haystack : List Byte) (hay_len : Nat) (needle : List Byte)
    (needle_len : Nat) : Checked (Option Nat) :=
  find_sequence_outer_nat haystack hay_len needle needle_len hay_len 0

/-! ## Memory operations -/

/-- The call `memcpy(dst + dstOff, src + srcOff, len)`; also `memmove`, whose source
may be `dst` itself. -/
def memcpy (dst : List Byte) (dstOff : Nat) (src : List Byte) (srcOff len : Nat) :
    Checked (List Byte) :=
  if dstOff + len ≤ dst.length ∧ srcOff + len ≤ src.length then
    some (dst.take dstOff ++ (src.drop srcOff).take len ++ dst.drop (dstOff + len))
  else none

/-- The test `memcmp(a, b, n) != 0`. -/
def memcmp_ne (a b : List Byte) (n : Nat) : Checked Bool :=
  if n ≤ a.length ∧ n ≤ b.length then some (decide (a.take n ≠ b.take n)) else none

/-! ## The connection object and `closeSerial` -/

/-- The data members of `Serial` used by `Serial.cpp`. -/
structure Serial where
  port : List Char
  baud : Nat
  fd : Int
  lockfd : Int
  lockfile : List Char
deriving DecidableEq

/-- System calls issued on behalf of the connection, in program order. -/
inductive SysCall
  | ioctlFlush (fd : Int)
  | close (fd : Int)
  | unlink (path : List Char)
deriving DecidableEq

/-- The method `Serial::closeSerial`: the return value, the object afterwards and
the system calls made. -/
def closeSerial (s : Serial) : Int × Serial × List SysCall :=
  let c1 := if s.fd ≥ 0 then [SysCall.ioctlFlush s.fd, SysCall.close s.fd] else []
  let c2 := if s.lockfd ≥ 0 then [SysCall.close s.lockfd, SysCall.unlink s.lockfile] else []
  (0, s, c1 ++ c2)

/-- The method `Serial::isOpen`. -/
def isOpen (s : Serial) : Bool := decide (s.fd ≥ 0)

/-! ## The read script -/

/-- What one `read()` call finds.  `bytes c`: the bytes `c` are there to be read (none
of them: the peer closed and `read` returns 0); a call that asks for at least as many
bytes gets them all, a call that asks for fewer gets the first ones and leaves the
rest for the next call.  `nreceive_peek` always asks for 1024 bytes, so in a script
for it a chunk has at most 1024 bytes and is the result of one call.
`fail errno expired`: the call returns `-1` with `errno`; `expired` is the answer
`Utils::checkTimeout` gives if it is asked in that iteration. -/
inductive ReadEvent
  | bytes (c : List Byte)
  | fail (errno : Nat) (expired : Bool)
deriving DecidableEq

/-- The value of `EAGAIN` (and `EWOULDBLOCK`) on Linux. -/
def EAGAIN : Nat := 11

/-- How a read loop ends: it returns a value, or it polls a quiet line for ever. -/
inductive Outcome
  | returned (value : Int)
  | blocked
deriving DecidableEq

/-! ## `Serial::nreceive_peek` -/

/-- The state left by `nreceive_peek`: how the call ended, the destination buffer,
the fill count `nread`, the connection object and the system calls made. -/
structure PeekResult where
  outcome : Outcome
  dest : List Byte
  nread : Nat
  serial : Serial
  sys : List SysCall
deriving DecidableEq

/-- The branch `ret > 0` of the loop body of `Serial::nreceive_peek`: `tmp` is the
region of the `ret` bytes just read; the result is the destination and the fill count
`nread` at the end of the iteration.  The two calls of `find_sequence` are taken with
counters that do not wrap (`find_sequence_nat`). -/
def nreceive_peek_data (len_dest : Nat) (peek : List Byte) (peek_len : Nat)
    (dest : List Byte) (nread : Nat) (tmp : List Byte) : Checked (List Byte × Nat) :=
  let ret := tmp.length
  if nread = 0 then
    match find_sequence_nat tmp ret peek peek_len with
    | none => none
    | some none => some (dest, nread)
    | some (some off) =>
      let len := min (ret - off) len_dest
      match memcpy dest 0 tmp off len with
      | none => none
      | some dest1 => some (dest1, nread + len)
  else
    let len := min ret (len_dest - nread)
    match memcpy dest nread tmp 0 len with
    | none => none
    | some dest1 =>
      let nread1 := nread + len
      match memcmp_ne peek dest1 peek_len with
      | none => none
      | some false => some (dest1, nread1)
      | some true =>
        match find_sequence_nat dest1 nread1 peek peek_len with
        | none => none
        | some (some off) =>
          let len2 := nread1 - off
          match memcpy dest1 0 dest1 off len2 with
          | none => none
          | some dest2 => some (dest2, len2)
        | some none => some (dest1, 0)

/-- The loop of `Serial::nreceive_peek`.  Each event of the script is the result of
one `read(_fd, tmp, 1024)`.  When the script is over the line is quiet: the loop
leaves through the timeout test if `timeout` is not negative and polls for ever
otherwise. -/
def nreceive_peek_loop (len_dest : Nat) (peek : List Byte) (peek_len : Nat) (timeout : Int) :
    List ReadEvent → Serial → List SysCall → List Byte → Nat → Checked PeekResult
  | [], s, sys, dest, nread =>
    if nread < len_dest then
      if timeout < 0 then some ⟨Outcome.blocked, dest, nread, s, sys⟩
      else some ⟨Outcome.returned nread, dest, nread, s, sys⟩
    else some ⟨Outcome.returned nread, dest, nread, s, sys⟩
  | ev :: rest, s, sys, dest, nread =>
    if nread < len_dest then
      match ev with
      | ReadEvent.fail errno expired =>
        if errno = EAGAIN then
          if timeout = 0 ∨ (timeout > 0 ∧ expired = true) then
            some ⟨Outcome.returned nread, dest, nread, s, sys⟩
          else nreceive_peek_loop len_dest peek peek_len timeout rest s sys dest nread
        else some ⟨Outcome.returned (-(errno : Int)), dest, nread, s, sys⟩
      | ReadEvent.bytes tmp =>
        if tmp.length = 0 then
          nreceive_peek_loop len_dest peek peek_len timeout rest
            (closeSerial s).2.1 (sys ++ (closeSerial s).2.2) dest nread
        else
          match nreceive_peek_data len_dest peek peek_len dest nread tmp with
          | none => none
          | some (dest1, nread1) =>
            nreceive_peek_loop len_dest peek peek_len timeout rest s sys dest1 nread1
    else some ⟨Outcome.returned nread, dest, nread, s, sys⟩

/-- The method `Serial::nreceive_peek(dest, len_dest, peek, peek_len, timeout)` run
against a script. -/
def nreceive_peek (s : Serial) (script : List ReadEvent) (dest : List Byte) (len_dest : Nat)
    (peek : List Byte) (peek_len : Nat) (timeout : Int) : Checked PeekResult :=
  nreceive_peek_loop len_dest peek peek_len timeout script s [] dest 0


/-! ## `Serial::receive(char*, size_t, bool)` -/

/-- The state left by `receive`: how the call ended, the caller's buffer, the count
`nread`, the part of the script not yet read, the connection object and the system
calls made. -/
structure RecvResult where
  outcome : Outcome
  buffer : List Byte
  nread : Nat
  script : List ReadEvent
  serial : Serial
  sys : List SysCall
deriving DecidableEq

/-- The loop of `Serial::receive(char* buffer, size_t nmax, bool block)`.  The call
`read(_fd, buffer + nread, nmax - nread)` takes at most `nmax - nread` of the bytes
that are there; when it takes fewer than all of them `nread` reaches `nmax`, the
`while` test fails and the function returns, the other bytes staying in the script.
When the script is over every read fails with `EAGAIN`. -/
def receive_loop (nmax : Nat) (block : Bool) :
    List ReadEvent → Serial → List SysCall → List Byte → Nat → Checked RecvResult
  | [], s, sys, buffer, nread =>
    if nread < nmax then
      if block = true then some ⟨Outcome.blocked, buffer, nread, [], s, sys⟩
      else some ⟨Outcome.returned nread, buffer, nread, [], s, sys⟩
    else some ⟨Outcome.returned nread, buffer, nread, [], s, sys⟩
  | ev :: rest, s, sys, buffer, nread =>
    if nread < nmax then
      match ev with
      | ReadEvent.fail errno _ =>
        if errno = EAGAIN then
          if block = true then receive_loop nmax block rest s sys buffer nread
          else some ⟨Outcome.returned nread, buffer, nread, rest, s, sys⟩
        else some ⟨Outcome.returned (-(errno : Int)), buffer, nread, rest, s, sys⟩
      | ReadEvent.bytes avail =>
        if avail.length = 0 then
          receive_loop nmax block rest (closeSerial s).2.1 (sys ++ (closeSerial s).2.2)
            buffer nread
        else if avail.length ≤ nmax - nread then
          match memcpy buffer nread avail 0 avail.length with
          | none => none
          | some buffer1 => receive_loop nmax block rest s sys buffer1 (nread + avail.length)
        else
          match memcpy buffer nread avail 0 (nmax - nread) with
          | none => none
          | some buffer1 =>
            some ⟨Outcome.returned ((nread + (nmax - nread) : Nat) : Int), buffer1,
              nread + (nmax - nread), ReadEvent.bytes (avail.drop (nmax - nread)) :: rest, s, sys⟩
    else some ⟨Outcome.returned nread, buffer, nread, ev :: rest, s, sys⟩

/-- The method `Serial::receive(char* buffer, size_t nmax, bool block)` run against a
script. -/
def receive (s : Serial) (script : List ReadEvent) (buffer : List Byte) (nmax : Nat)
    (block : Bool) : Checked RecvResult :=
  receive_loop nmax block script s [] buffer 0

/-- Successive calls `receive(buffer, n, false)` on the same descriptor and the same
buffer, one for each `n` of the list: for every call its outcome and the bytes it
delivered (the first `nread` bytes of the buffer), and the script left at the end. -/
def receive_calls : List Nat → Serial → List ReadEvent → List Byte →
    Checked (List (Outcome × List Byte) × List ReadEvent)
  | [], _, script, _ => some ([], script)
  | n :: ns, s, script, buffer =>
    match receive s script buffer n false with
    | none => none
    | some res =>
      match receive_calls ns res.serial res.script res.buffer with
      | none => none
      | some (outs, script1) => some ((res.outcome, res.buffer.take res.nread) :: outs, script1)

/-- The bytes a script delivers, in order. -/
def stream : List ReadEvent → List Byte
  | [] => []
  | ReadEvent.bytes c :: rest => c ++ stream rest
  | ReadEvent.fail _ _ :: rest => stream rest

/-- The number of bytes a script delivers before its first read that fails. -/
def bytesBeforeBlock : List ReadEvent → Nat
  | [] => 0
  | ReadEvent.bytes c :: rest => c.length + bytesBeforeBlock rest
  | ReadEvent.fail _ _ :: _ => 0

/-- An event that is neither a close nor a fatal error: some bytes, or a read that
would block. -/
def Benign : ReadEvent → Prop
  | ReadEvent.bytes c => c ≠ []
  | ReadEvent.fail errno _ => errno = EAGAIN

instance (ev : ReadEvent) : Decidable (Benign ev) := by
  cases ev <;> unfold Benign <;> infer_instance

/-! ## Reference definition of the marker search -/

/-- The first index `n` with `i ≤ n < i + rem` at which `p` holds. -/
def firstIndexFrom (p : Nat → Bool) : Nat → Nat → Option Nat
  | 0, _ => none
  | rem + 1, i => if p i then some i else firstIndexFrom p rem (i + 1)

/-- The position of the first full occurrence of `m` in `h`. -/
def firstFullOccurrence (h m : List Byte) : Option Nat :=
  firstIndexFrom (fun i => m.isPrefixOf (h.drop i)) h.length 0

/-- The start of the longest non-empty suffix of `h` that is a prefix of `m`. -/
def longestTailMatch (h m : List Byte) : Option Nat :=
  firstIndexFrom (fun i => (h.drop i).isPrefixOf m) h.length 0

/-- The marker search as the specification words it: the first full occurrence if
there is one, otherwise the partial match at the tail, otherwise null. -/
def find_sequence_ref (h m : List Byte) : Option Nat :=
  match firstFullOccurrence h m with
  | some i => some i
  | none => longestTailMatch h m

/-! ## Notions used to state the synchronisation property -/

/-- Length of the longest common prefix of two byte strings. -/
def lcp : List Byte → List Byte → Nat
  | a :: as, b :: bs => if a = b then lcp as bs + 1 else 0
  | _, _ => 0

/-- Viability of a candidate: `Viable b m` says that the non-empty string `b` starts with the whole marker `m`, or the
whole of `b` is the beginning of `m`. This is the exit test of `find_sequence`. -/
def Viable (b m : List Byte) : Prop := m <+: b ∨ (b <+: m ∧ b ≠ [])

/-- What the search returns when started at index `i` of `h`: the first index
from `i` on at which the rest of `h` is viable, or `none` when there is none. -/
def FirstViable (h m : List Byte) (i : Nat) : Option Nat → Prop
  | none => ∀ n, i ≤ n → n < h.length → ¬ Viable (h.drop n) m
  | some r => i ≤ r ∧ r < h.length ∧ Viable (h.drop r) m ∧
      ∀ n, i ≤ n → n < r → ¬ Viable (h.drop n) m

/-- The window kept by the synchroniser: `LongestViable m x w` says that `w` is the longest suffix of `x` that is viable for the marker
`m`, or is empty when no suffix of `x` is viable. -/
def LongestViable (m x w : List Byte) : Prop :=
  w <:+ x ∧ (w = [] ∨ Viable w m) ∧ ∀ b, b <:+ x → Viable b m → b.length ≤ w.length

/-- A data chunk of the event has at most `n` bytes. -/
def ChunkAtMost (n : Nat) : ReadEvent → Prop
  | ReadEvent.bytes c => c.length ≤ n
  | ReadEvent.fail _ _ => True

instance (n : Nat) (ev : ReadEvent) : Decidable (ChunkAtMost n ev) := by
  cases ev <;> unfold ChunkAtMost <;> infer_instance

/-- The part of `x` kept after a search: from the offset found on, or nothing. -/
def windowAt (x : List Byte) : Option Nat → List Byte
  | none => []
  | some off => x.drop off

/-- The candidate held by the destination after the bytes `x` have been read and none
was lost: the longest suffix of `x` that is viable for the marker `m`, or nothing. -/
def window (m x : List Byte) : List Byte :=
  windowAt x (find_sequence_ref x m)

/-- No read is cut on a false start.  `NoCutOnFalseStart L m done script`: for every
data chunk `c` of the script, read after the bytes `done` and the chunks before it, if
the candidate `w` held at that moment is not empty and `w ++ c` does not start with
the marker, then `c` fits in the free room of the destination, `|w| + |c| ≤ L`. -/
def NoCutOnFalseStart (len_dest : Nat) (m : List Byte) : List Byte → List ReadEvent → Prop
  | _, [] => True
  | done, ReadEvent.fail _ _ :: rest => NoCutOnFalseStart len_dest m done rest
  | done, ReadEvent.bytes c :: rest =>
    (window m done ≠ [] → ¬ m <+: window m done ++ c →
      (window m done).length + c.length ≤ len_dest) ∧
    NoCutOnFalseStart len_dest m (done ++ c) rest

/-- The property `NoCutOnFalseStart` can be computed. -/
def decNoCutOnFalseStart (len_dest : Nat) (m : List Byte) :
    (done : List Byte) → (script : List ReadEvent) →
      Decidable (NoCutOnFalseStart len_dest m done script)
  | _, [] => isTrue trivial
  | done, ReadEvent.fail _ _ :: rest => decNoCutOnFalseStart len_dest m done rest
  | done, ReadEvent.bytes c :: rest =>
    @instDecidableAnd _ _ inferInstance (decNoCutOnFalseStart len_dest m (done ++ c) rest)

instance (len_dest : Nat) (m done : List Byte) (script : List ReadEvent) :
    Decidable (NoCutOnFalseStart len_dest m done script) :=
  decNoCutOnFalseStart len_dest m done script

/-! ## The operating system seen by `_lockDevice`, `openSerial` and `setBaudrate` -/

/-- The result of one system call: the value returned and, when the value is
negative, the value left in `errno`. -/
structure SysRet where
  value : Int
  errno : Nat
deriving DecidableEq

/-- The file system, the process table and the descriptors of this process.
`files` maps the path of a regular file to its contents; `procs` lists the process
identifiers `p` for which the directory `/proc/p` exists; `pid` is `getpid()`;
`openFds` lists the descriptors open in this process; `speed` is the line speed
last given to the device by a successful `TCSETS2`. -/
structure World where
  files : List (List Char × List Char)
  procs : List Nat
  pid : Nat
  openFds : List Int
  speed : Option Nat
deriving DecidableEq

/-- What the system calls that can fail answer during one call of `openSerial` or
`setBaudrate`: `open(_port, ...)`, `isatty(_fd)`, `unlink(_lockfile)`,
`open(_lockfile, O_CREAT | O_RDWR, 0644)`, `write(_lockfd, ...)`, and the `ioctl`
requests `TCSETS`, `TCGETS2` and `TCSETS2`. -/
structure OsOutcome where
  devOpen : SysRet
  isatty : Int
  unlinkOk : Bool
  lockOpen : SysRet
  lockWrite : SysRet
  tcsets : SysRet
  tcgets2 : SysRet
  tcsets2 : SysRet
deriving DecidableEq

/-- The call `s.find_last_of(c)`, scanning from index `i` with `found` the last index
seen so far. -/
def find_last_of_from (c : Char) : List Char → Nat → Option Nat → Option Nat
  | [], _, found => found
  | x :: xs, i, found => find_last_of_from c xs (i + 1) (if x = c then some i else found)

/-- The call `s.find_last_of(c)`; `none` is `std::string::npos`. -/
def find_last_of (s : List Char) (c : Char) : Option Nat :=
  find_last_of_from c s 0 none

/-- The lock file path computed at the start of `_lockDevice`:
`"/var/lock/LCK.." + device_name`. -/
def lockfilePath (port : List Char) : List Char :=
  let device_name :=
    match find_last_of port '/' with
    | some pos => port.drop (pos + 1)
    | none => port
  "/var/lock/LCK..".toList ++ device_name

/-- The value of the leading decimal digits of a string, continuing from `acc`. -/
def digitsValue : List Char → Nat → Nat
  | [], acc => acc
  | c :: cs, acc => if c.isDigit then digitsValue cs (acc * 10 + (c.toNat - 48)) else acc

/-- The test `isspace(c)` of the C locale. -/
def isspace (c : Char) : Bool :=
  c.toNat = 32 || (9 ≤ c.toNat && c.toNat ≤ 13)

/-- The extraction `lock_stream >> pid` into an `int`: white space is skipped, a sign
is accepted, the digits are read, the value is clamped to the range of `int`; without a
digit the value is 0. -/
def parse_int (content : List Char) : Int :=
  match content.dropWhile isspace with
  | '-' :: ds => max (-(digitsValue ds 0 : Int)) (-2147483648)
  | '+' :: ds => min (digitsValue ds 0 : Int) 2147483647
  | ds => min (digitsValue ds 0 : Int) 2147483647

/-- The test `stat(("/proc/" + std::to_string(pid)).c_str(), &buffer) == 0`. -/
def procDirExists (w : World) (pid : Int) : Bool :=
  decide (0 ≤ pid) && w.procs.contains pid.toNat

/-- The string `std::to_string(getpid())`. -/
def pid_str (w : World) : List Char := Nat.toDigits 10 w.pid

/-- The file system after `unlink(path)` succeeded. -/
def removeFile (files : List (List Char × List Char)) (path : List Char) :
    List (List Char × List Char) :=
  files.filter (fun e => decide (e.1 ≠ path))

/-- The file system after `write(fd, text, text.length)` succeeded at offset 0 of the
file `path`, whose contents were `old`. -/
def writeFile (files : List (List Char × List Char)) (path old text : List Char) :
    List (List Char × List Char) :=
  (path, text ++ old.drop text.length) :: removeFile files path

/-- The tail of `_lockDevice` after the test of an existing lock file: create or open
the lock file, write the process identifier. -/
def lockDevice_create (s : Serial) (os : OsOutcome) (w : World) : Int × Serial × World :=
  let s1 : Serial := ⟨s.port, s.baud, s.fd, os.lockOpen.value, s.lockfile⟩
  if os.lockOpen.value < 0 then (-1, s1, w)
  else
    let old := (w.files.lookup s.lockfile).getD []
    let w1 : World :=
      ⟨writeFile w.files s.lockfile old [], w.procs, w.pid, os.lockOpen.value :: w.openFds,
        w.speed⟩
    if os.lockWrite.value < 0 then (-1, s1, w1)
    else
      (0, s1, ⟨writeFile w.files s.lockfile old (pid_str w), w.procs, w.pid,
        os.lockOpen.value :: w.openFds, w.speed⟩)

/-- The method `Serial::_lockDevice`: the return value, the object afterwards and the
world afterwards. -/
def _lockDevice (s : Serial) (os : OsOutcome) (w : World) : Int × Serial × World :=
  let s1 : Serial := ⟨s.port, s.baud, s.fd, s.lockfd, lockfilePath s.port⟩
  match w.files.lookup s1.lockfile with
  | some content =>
    if procDirExists w (parse_int content) = true then (1, s1, w)
    else
      let w1 : World :=
        if os.unlinkOk = true then
          ⟨removeFile w.files s1.lockfile, w.procs, w.pid, w.openFds, w.speed⟩
        else w
      lockDevice_create s1 os w1
  | none => lockDevice_create s1 os w

/-- The method `Serial::openSerial`.  The results of the three `ioctl` calls are not
looked at by the code; `TCSETS2` gives the device its speed when it succeeds. -/
def openSerial (s : Serial) (os : OsOutcome) (w : World) : Int × Serial × World :=
  let s1 : Serial := ⟨s.port, s.baud, os.devOpen.value, s.lockfd, s.lockfile⟩
  if os.devOpen.value < 0 then ((os.devOpen.errno : Int), s1, w)
  else
    let w1 : World := ⟨w.files, w.procs, w.pid, os.devOpen.value :: w.openFds, w.speed⟩
    if os.isatty ≠ 1 then (-1, s1, w1)
    else
      let r := _lockDevice s1 os w1
      if r.1 ≠ 0 then (-1, r.2.1, r.2.2)
      else
        let w2 : World :=
          if os.tcsets2.value < 0 then r.2.2
          else ⟨r.2.2.files, r.2.2.procs, r.2.2.pid, r.2.2.openFds, some s.baud⟩
        (0, r.2.1, w2)

/-- The method `Serial::setBaudrate`. -/
def setBaudrate (s : Serial) (baud : Nat) (os : OsOutcome) (w : World) :
    Int × Serial × World :=
  if s.fd < 0 then (0, ⟨s.port, baud, s.fd, s.lockfd, s.lockfile⟩, w)
  else if os.tcgets2.value < 0 then ((os.tcgets2.errno : Int), s, w)
  else if os.tcsets2.value < 0 then ((os.tcsets2.errno : Int), s, w)
  else
    (0, ⟨s.port, baud, s.fd, s.lockfd, s.lockfile⟩,
      ⟨w.files, w.procs, w.pid, w.openFds, some baud⟩)

/-! ## Example states -/

/-- A connection object for `/dev/ttyUSB0` before `openSerial`. -/
def closedPort : Serial := ⟨"/dev/ttyUSB0".toList, 115200, -1, -1, []⟩

/-- A connection object for `/dev/ttyUSB0` whose device descriptor is 3 and whose lock
descriptor is 4. -/
def openPort : Serial :=
  ⟨"/dev/ttyUSB0".toList, 115200, 3, 4, "/var/lock/LCK..ttyUSB0".toList⟩

/-- A world in which the lock file of `ttyUSB0` records the process 4242, the live
processes are `procs`, and this process is 777. -/
def lockedWorld (procs : List Nat) : World :=
  ⟨[("/var/lock/LCK..ttyUSB0".toList, "4242".toList)], procs, 777, [0, 1, 2], none⟩

/-- A world without any lock file. -/
def freeWorld : World := ⟨[], [1, 777], 777, [0, 1, 2], none⟩

/-- Every system call succeeds; the device is opened as descriptor 3 and the lock
file as descriptor 4. -/
def osAllOk : OsOutcome := ⟨⟨3, 0⟩, 1, true, ⟨4, 0⟩, ⟨3, 0⟩, ⟨0, 0⟩, ⟨0, 0⟩, ⟨0, 0⟩⟩

/-- The device is opened as descriptor 3, but the lock file can be neither removed nor
opened for writing (`EACCES`, 13). -/
def osLockDenied : OsOutcome := ⟨⟨3, 0⟩, 1, false, ⟨-1, 13⟩, ⟨-1, 9⟩, ⟨0, 0⟩, ⟨0, 0⟩, ⟨0, 0⟩⟩

/-- The device is opened as descriptor 3 and the lock file as descriptor 4, but the
write of the process identifier fails (`ENOSPC`, 28). -/
def osWriteFails : OsOutcome := ⟨⟨3, 0⟩, 1, true, ⟨4, 0⟩, ⟨-1, 28⟩, ⟨0, 0⟩, ⟨0, 0⟩, ⟨0, 0⟩⟩

/-- The device cannot be opened (`ENOENT`, 2). -/
def osNoDevice : OsOutcome := ⟨⟨-1, 2⟩, 0, true, ⟨4, 0⟩, ⟨3, 0⟩, ⟨0, 0⟩, ⟨0, 0⟩, ⟨0, 0⟩⟩

/-- The device is opened as descriptor 3 and is not a terminal. -/
def osNotTty : OsOutcome := ⟨⟨3, 0⟩, 0, true, ⟨4, 0⟩, ⟨3, 0⟩, ⟨0, 0⟩, ⟨0, 0⟩, ⟨0, 0⟩⟩

/-- Everything succeeds except the `ioctl` requests `TCGETS2` and `TCSETS2`, which fail
with `ENOTTY` (25). -/
def osSpeedFails : OsOutcome := ⟨⟨3, 0⟩, 1, true, ⟨4, 0⟩, ⟨3, 0⟩, ⟨0, 0⟩, ⟨-1, 25⟩, ⟨-1, 25⟩⟩

/-! ## Facts about `find_sequence_nat` -/

theorem lcp_nil_right (x : List Byte) : lcp x [] = 0 := by
  cases x <;> rfl

theorem lcp_eq_length_right (x y : List Byte) : lcp x y = y.length ↔ y <+: x := by
  induction x generalizing y with
  | nil => cases y <;> simp [lcp]
  | cons a as ih =>
    cases y with
    | nil => simp [lcp]
    | cons b bs =>
      by_cases hab : a = b
      · subst hab
        simp [lcp, ih bs, List.cons_prefix_cons]
      · have hba : ¬ b = a := fun h => hab h.symm
        simp [lcp, hab, hba, List.cons_prefix_cons]

theorem lcp_eq_length_left (x y : List Byte) : lcp x y = x.length ↔ x <+: y := by
  induction x generalizing y with
  | nil => cases y <;> simp [lcp]
  | cons a as ih =>
    cases y with
    | nil => simp [lcp]
    | cons b bs =>
      by_cases hab : a = b
      · subst hab
        simp [lcp, ih bs, List.cons_prefix_cons]
      · simp [lcp, hab, List.cons_prefix_cons]

theorem find_sequence_inner_nat_eq (hay : List Byte) (hay_len : Nat) (needle : List Byte) (i : Nat)
    (hlen : hay_len ≤ hay.length) :
    ∀ rem j, j + rem ≤ needle.length →
      find_sequence_inner_nat hay hay_len needle i rem j
        = some (j + lcp ((hay.take hay_len).drop (i + j)) ((needle.drop j).take rem)) := by
  intro rem
  induction rem with
  | zero => intro j _; simp [find_sequence_inner_nat, lcp_nil_right]
  | succ rem ih =>
    intro j hj
    have hjn : j < needle.length := by omega
    have hneedle : (needle.drop j).take (rem + 1) = needle[j] :: (needle.drop (j + 1)).take rem := by
      rw [List.drop_eq_getElem_cons hjn, List.take_succ_cons]
    by_cases hlt : i + j < hay_len
    · have hij : i + j < hay.length := by omega
      have hij2 : i + j < (hay.take hay_len).length := by
        rw [List.length_take]; omega
      have hhay : (hay.take hay_len).drop (i + j)
          = hay[i + j] :: (hay.take hay_len).drop (i + j + 1) := by
        rw [List.drop_eq_getElem_cons hij2, List.getElem_take]
      rw [find_sequence_inner_nat, if_pos hlt, List.getElem?_eq_getElem hij,
        List.getElem?_eq_getElem hjn, hhay, hneedle]
      by_cases hab : hay[i + j] = needle[j]
      · simp only [hab, if_true, lcp]
        rw [ih (j + 1) (by omega)]
        simp only [hab, if_true, Nat.add_assoc, Nat.add_comm 1]
      · simp [hab, lcp]
    · have hnil : (hay.take hay_len).drop (i + j) = [] := by
        apply List.drop_eq_nil_of_le
        rw [List.length_take]; omega
      rw [find_sequence_inner_nat, if_neg hlt, hnil]
      simp [lcp]

theorem find_sequence_exit_iff (h m : List Byte) (i : Nat) (hi : i < h.length) :
    (lcp (h.drop i) m = m.length ∨ (i + lcp (h.drop i) m = h.length ∧ lcp (h.drop i) m > 0))
      ↔ Viable (h.drop i) m := by
  have hd : (h.drop i).length = h.length - i := List.length_drop i h
  have hne : h.drop i ≠ [] := by
    intro hnil
    rw [hnil] at hd
    simp at hd; omega
  unfold Viable
  rw [← lcp_eq_length_right, ← lcp_eq_length_left, hd]
  constructor
  · rintro (h1 | ⟨h2, _⟩)
    · exact Or.inl h1
    · exact Or.inr ⟨by omega, hne⟩
  · rintro (h1 | ⟨h2, _⟩)
    · exact Or.inl h1
    · exact Or.inr ⟨by omega, by omega⟩

theorem find_sequence_outer_nat_spec (hay : List Byte) (hay_len : Nat) (needle : List Byte)
    (needle_len : Nat) (hlen : hay_len ≤ hay.length) (hn : needle_len ≤ needle.length) :
    ∀ rem i, i + rem = hay_len →
      ∃ r, find_sequence_outer_nat hay hay_len needle needle_len rem i = some r ∧
        FirstViable (hay.take hay_len) (needle.take needle_len) i r := by
  have hl : (hay.take hay_len).length = hay_len := by
    rw [List.length_take]; omega
  intro rem
  induction rem with
  | zero =>
    intro i hi
    refine ⟨none, rfl, ?_⟩
    intro n h1 h2
    rw [hl] at h2
    omega
  | succ rem ih =>
    intro i hi
    have hih : i < (hay.take hay_len).length := by rw [hl]; omega
    have hinner := find_sequence_inner_nat_eq hay hay_len needle i hlen needle_len 0 (by omega)
    simp only [Nat.add_zero, Nat.zero_add, List.drop_zero] at hinner
    have hex := find_sequence_exit_iff (hay.take hay_len) (needle.take needle_len) i hih
    have hml : (needle.take needle_len).length = needle_len := by
      rw [List.length_take]; omega
    rw [hml, hl] at hex
    rw [find_sequence_outer_nat, hinner]
    by_cases hc : lcp ((hay.take hay_len).drop i) (needle.take needle_len) = needle_len ∨
        (i + lcp ((hay.take hay_len).drop i) (needle.take needle_len) = hay_len ∧
          lcp ((hay.take hay_len).drop i) (needle.take needle_len) > 0)
    · refine ⟨some i, by simp only [if_pos hc], Nat.le_refl i, hih, hex.mp hc, ?_⟩
      intro n h1 h2
      omega
    · obtain ⟨r, hr, hspec⟩ := ih (i + 1) (by omega)
      refine ⟨r, by simp only [if_neg hc]; exact hr, ?_⟩
      have hnv : ¬ Viable ((hay.take hay_len).drop i) (needle.take needle_len) :=
        fun hv => hc (hex.mpr hv)
      cases r with
      | none =>
        intro n h1 h2
        by_cases hni : n = i
        · subst hni; exact hnv
        · exact hspec n (by omega) h2
      | some r =>
        obtain ⟨h1, h2, h3, h4⟩ := hspec
        refine ⟨by omega, h2, h3, ?_⟩
        intro n hn1 hn2
        by_cases hni : n = i
        · subst hni; exact hnv
        · exact h4 n (by omega) hn2

theorem find_sequence_nat_spec (hay : List Byte) (hay_len : Nat) (needle : List Byte)
    (needle_len : Nat) (hlen : hay_len ≤ hay.length) (hn : needle_len ≤ needle.length) :
    ∃ r, find_sequence_nat hay hay_len needle needle_len = some r ∧
      FirstViable (hay.take hay_len) (needle.take needle_len) 0 r :=
  find_sequence_outer_nat_spec hay hay_len needle needle_len hlen hn hay_len 0 (by omega)


theorem firstIndexFrom_some (p : Nat → Bool) :
    ∀ rem i r, firstIndexFrom p rem i = some r →
      i ≤ r ∧ r < i + rem ∧ p r = true ∧ ∀ n, i ≤ n → n < r → p n = false := by
  intro rem
  induction rem with
  | zero => intro i r h; simp [firstIndexFrom] at h
  | succ rem ih =>
    intro i r h
    rw [firstIndexFrom] at h
    by_cases hp : p i = true
    · rw [if_pos hp] at h
      injection h with h
      subst h
      exact ⟨Nat.le_refl _, by omega, hp, fun n h1 h2 => by omega⟩
    · rw [if_neg hp] at h
      obtain ⟨h1, h2, h3, h4⟩ := ih (i + 1) r h
      refine ⟨by omega, by omega, h3, ?_⟩
      intro n hn1 hn2
      by_cases hni : n = i
      · subst hni; simpa using hp
      · exact h4 n (by omega) hn2

theorem firstIndexFrom_none (p : Nat → Bool) :
    ∀ rem i, firstIndexFrom p rem i = none → ∀ n, i ≤ n → n < i + rem → p n = false := by
  intro rem
  induction rem with
  | zero => intro i _ n h1 h2; omega
  | succ rem ih =>
    intro i h n h1 h2
    rw [firstIndexFrom] at h
    by_cases hp : p i = true
    · rw [if_pos hp] at h; cases h
    · rw [if_neg hp] at h
      by_cases hni : n = i
      · subst hni; simpa using hp
      · exact ih (i + 1) h n (by omega) (by omega)

theorem full_occurrence_iff_infix (h m : List Byte) (hm : m ≠ []) :
    (∃ n, n < h.length ∧ m <+: h.drop n) ↔ m <:+: h := by
  constructor
  · rintro ⟨n, _, t, ht⟩
    refine ⟨h.take n, t, ?_⟩
    rw [List.append_assoc, ht, List.take_append_drop]
  · rintro ⟨s, t, hst⟩
    have hml : 0 < m.length := List.length_pos.mpr hm
    refine ⟨s.length, ?_, t, ?_⟩
    · rw [← hst]; simp only [List.length_append]; omega
    · rw [← hst, List.append_assoc, List.drop_left]

theorem tail_match_iff_suffix (h m : List Byte) :
    (∃ n, n < h.length ∧ h.drop n <+: m) ↔ ∃ t, t ≠ [] ∧ t <:+ h ∧ t <+: m := by
  constructor
  · rintro ⟨n, hn, hp⟩
    refine ⟨h.drop n, ?_, List.drop_suffix n h, hp⟩
    intro hnil
    have := List.length_drop n h
    rw [hnil] at this
    simp at this; omega
  · rintro ⟨t, hne, ⟨s, hst⟩, hp⟩
    have htl : 0 < t.length := List.length_pos.mpr hne
    refine ⟨s.length, ?_, ?_⟩
    · rw [← hst]; simp only [List.length_append]; omega
    · rw [← hst, List.drop_left]; exact hp

theorem firstViable_none_iff (h m : List Byte) (hm : m ≠ []) :
    FirstViable h m 0 none ↔ ¬ m <:+: h ∧ ¬ ∃ t, t ≠ [] ∧ t <:+ h ∧ t <+: m := by
  rw [← full_occurrence_iff_infix h m hm, ← tail_match_iff_suffix]
  constructor
  · intro hv
    refine ⟨?_, ?_⟩
    · rintro ⟨n, hn, hp⟩
      exact hv n (Nat.zero_le _) hn (Or.inl hp)
    · rintro ⟨n, hn, hp⟩
      refine hv n (Nat.zero_le _) hn (Or.inr ⟨hp, ?_⟩)
      intro hnil
      have := List.length_drop n h
      rw [hnil] at this
      simp at this; omega
  · rintro ⟨h1, h2⟩ n _ hn hv
    rcases hv with hv | ⟨hv, _⟩
    · exact h1 ⟨n, hn, hv⟩
    · exact h2 ⟨n, hn, hv⟩

theorem firstViable_unique (h m : List Byte) (i : Nat) (r1 r2 : Option Nat)
    (h1 : FirstViable h m i r1) (h2 : FirstViable h m i r2) : r1 = r2 := by
  cases r1 with
  | none =>
    cases r2 with
    | none => rfl
    | some b =>
      obtain ⟨b1, b2, b3, _⟩ := h2
      exact absurd b3 (h1 b b1 b2)
  | some a =>
    obtain ⟨a1, a2, a3, a4⟩ := h1
    cases r2 with
    | none => exact absurd a3 (h2 a a1 a2)
    | some b =>
      obtain ⟨b1, b2, b3, b4⟩ := h2
      have hab : a = b := by
        rcases Nat.lt_trichotomy a b with hlt | heq | hgt
        · exact absurd a3 (b4 a a1 hlt)
        · exact heq
        · exact absurd b3 (a4 b b1 hgt)
      rw [hab]

theorem find_sequence_ref_firstViable (h m : List Byte) (hm : m ≠ []) :
    FirstViable h m 0 (find_sequence_ref h m) := by
  have hml : 0 < m.length := List.length_pos.mpr hm
  have hdl : ∀ n, (h.drop n).length = h.length - n := fun n => List.length_drop n h
  unfold find_sequence_ref
  cases hf : firstFullOccurrence h m with
  | some a =>
    obtain ⟨_, a2, a3, a4⟩ := firstIndexFrom_some _ _ _ _ hf
    simp only [List.isPrefixOf_iff_prefix, Nat.zero_add] at a2 a3
    refine ⟨Nat.zero_le _, a2, Or.inl a3, ?_⟩
    rintro n _ hn (hv | ⟨hv, _⟩)
    · have := a4 n (Nat.zero_le _) hn
      rw [← Bool.not_eq_true, List.isPrefixOf_iff_prefix] at this
      exact this hv
    · have l1 := hv.length_le
      have l2 := a3.length_le
      rw [hdl] at l1 l2
      omega
  | none =>
    have hnf := firstIndexFrom_none _ _ _ hf
    have hnofull : ∀ n, n < h.length → ¬ m <+: h.drop n := by
      intro n hn
      have := hnf n (Nat.zero_le _) (by omega)
      rw [← Bool.not_eq_true, List.isPrefixOf_iff_prefix] at this
      exact this
    cases hp : longestTailMatch h m with
    | some a =>
      obtain ⟨_, a2, a3, a4⟩ := firstIndexFrom_some _ _ _ _ hp
      simp only [List.isPrefixOf_iff_prefix, Nat.zero_add] at a2 a3
      refine ⟨Nat.zero_le _, a2, Or.inr ⟨a3, ?_⟩, ?_⟩
      · intro hnil
        have := hdl a
        rw [hnil] at this
        simp at this; omega
      · rintro n _ hn (hv | ⟨hv, _⟩)
        · exact hnofull n (by omega) hv
        · have := a4 n (Nat.zero_le _) hn
          rw [← Bool.not_eq_true, List.isPrefixOf_iff_prefix] at this
          exact this hv
    | none =>
      have hnp := firstIndexFrom_none _ _ _ hp
      rintro n _ hn (hv | ⟨hv, _⟩)
      · exact hnofull n hn hv
      · have := hnp n (Nat.zero_le _) (by omega)
        rw [← Bool.not_eq_true, List.isPrefixOf_iff_prefix] at this
        exact this hv

/-- The search with counters that do not wrap returns what the reference definition
returns, and returns null exactly when the needle neither occurs in the haystack nor
has a non-empty prefix ending it. -/
theorem find_sequence_nat_eq_ref (h m : List Byte) (hm : m ≠ []) :
    find_sequence_nat h h.length m m.length = some (find_sequence_ref h m) ∧
      (find_sequence_nat h h.length m m.length = some none ↔
        ¬ m <:+: h ∧ ¬ ∃ t, t ≠ [] ∧ t <:+ h ∧ t <+: m) := by
  obtain ⟨r, hr, hspec⟩ :=
    find_sequence_nat_spec h h.length m m.length (Nat.le_refl _) (Nat.le_refl _)
  rw [List.take_length, List.take_length] at hspec
  have hreq : r = find_sequence_ref h m :=
    firstViable_unique h m 0 _ _ hspec (find_sequence_ref_firstViable h m hm)
  refine ⟨by rw [hr, hreq], ?_⟩
  rw [← firstViable_none_iff h m hm, hr]
  constructor
  · intro hnone
    injection hnone with hnone
    rw [hnone] at hspec
    exact hspec
  · intro hv
    rw [firstViable_unique h m 0 _ _ hspec hv]

/-! ## The counters of `find_sequence` -/

theorem lcp_le_left (x y : List Byte) : lcp x y ≤ x.length := by
  induction x generalizing y with
  | nil => cases y <;> simp [lcp]
  | cons a as ih =>
    cases y with
    | nil => simp [lcp]
    | cons b bs =>
      by_cases hab : a = b
      · have := ih bs
        simp only [lcp, hab, if_true, List.length_cons]
        omega
      · simp [lcp, hab]

theorem lcp_take_right (x y : List Byte) (n : Nat) (h : x.length ≤ n) :
    lcp x (y.take n) = lcp x y := by
  induction x generalizing y n with
  | nil => cases y <;> cases n <;> simp [lcp]
  | cons a as ih =>
    cases y with
    | nil => simp
    | cons b bs =>
      cases n with
      | zero => simp at h
      | succ k =>
        have hk : as.length ≤ k := by
          simp only [List.length_cons] at h
          omega
        simp only [List.take_succ_cons, lcp, ih bs k hk]

theorem find_sequence_inner_bounded (hay : List Byte) (hay_len : Nat) (needle : List Byte)
    (needle_len i : Nat) (hlen : hay_len ≤ hay.length) (hU : hay_len < UINT_RANGE)
    (hn : needle_len ≤ needle.length) :
    ∀ rem j, i + j ≤ hay_len → j + rem = min needle_len UINT_RANGE →
      find_sequence_inner hay hay_len needle needle_len i rem j
        = some (some (j + lcp ((hay.take hay_len).drop (i + j)) ((needle.drop j).take rem))) := by
  intro rem
  induction rem with
  | zero =>
    intro j hij hj
    have hnl : needle_len < UINT_RANGE := by omega
    rw [find_sequence_inner, if_pos hnl]
    simp [lcp_nil_right]
  | succ rem ih =>
    intro j hij hj
    have hjn : j < needle.length := by omega
    have hmod : (i + j) % UINT_RANGE = i + j := Nat.mod_eq_of_lt (by omega)
    have hneedle : (needle.drop j).take (rem + 1) = needle[j] :: (needle.drop (j + 1)).take rem := by
      rw [List.drop_eq_getElem_cons hjn, List.take_succ_cons]
    rw [find_sequence_inner, hmod]
    by_cases hlt : i + j < hay_len
    · have hij1 : i + j < hay.length := by omega
      have hij2 : i + j < (hay.take hay_len).length := by
        rw [List.length_take]; omega
      have hhay : (hay.take hay_len).drop (i + j)
          = hay[i + j] :: (hay.take hay_len).drop (i + j + 1) := by
        rw [List.drop_eq_getElem_cons hij2, List.getElem_take]
      rw [if_pos hlt, List.getElem?_eq_getElem hij1, List.getElem?_eq_getElem hjn, hhay, hneedle]
      by_cases hab : hay[i + j] = needle[j]
      · simp only [hab, if_true, lcp]
        rw [ih (j + 1) (by omega) (by omega)]
        simp only [hab, if_true, Nat.add_assoc, Nat.add_comm 1]
      · simp [hab, lcp]
    · have hnil : (hay.take hay_len).drop (i + j) = [] := by
        apply List.drop_eq_nil_of_le
        rw [List.length_take]; omega
      rw [if_neg hlt, hnil]
      simp [lcp]

theorem find_sequence_outer_eq_nat (hay : List Byte) (hay_len : Nat) (needle : List Byte)
    (needle_len : Nat) (hlen : hay_len ≤ hay.length) (hU : hay_len < UINT_RANGE)
    (hn : needle_len ≤ needle.length) :
    ∀ rem i, i + rem = hay_len →
      find_sequence_outer hay hay_len needle needle_len rem i
        = (find_sequence_outer_nat hay hay_len needle needle_len rem i).map Search.ofOption := by
  intro rem
  induction rem with
  | zero =>
    intro i _
    rw [find_sequence_outer, if_pos hU, find_sequence_outer_nat]
    rfl
  | succ rem ih =>
    intro i hi
    have hf := find_sequence_inner_bounded hay hay_len needle needle_len i hlen hU hn
      (min needle_len UINT_RANGE) 0 (by omega) (by omega)
    have hnat := find_sequence_inner_nat_eq hay hay_len needle i hlen needle_len 0 (by omega)
    simp only [Nat.add_zero, Nat.zero_add, List.drop_zero] at hf hnat
    have hxl : ((hay.take hay_len).drop i).length ≤ hay_len := by
      rw [List.length_drop, List.length_take]; omega
    have hsame : lcp ((hay.take hay_len).drop i) (needle.take (min needle_len UINT_RANGE))
        = lcp ((hay.take hay_len).drop i) (needle.take needle_len) := by
      by_cases hnl : needle_len < UINT_RANGE
      · rw [Nat.min_eq_left (by omega)]
      · rw [Nat.min_eq_right (by omega), lcp_take_right _ _ _ (by omega),
          lcp_take_right _ _ _ (by omega)]
    rw [hsame] at hf
    have hJ := lcp_le_left ((hay.take hay_len).drop i) (needle.take needle_len)
    have hxl2 : ((hay.take hay_len).drop i).length = hay_len - i := by
      rw [List.length_drop, List.length_take]; omega
    have hmod : (i + lcp ((hay.take hay_len).drop i) (needle.take needle_len)) % UINT_RANGE
        = i + lcp ((hay.take hay_len).drop i) (needle.take needle_len) :=
      Nat.mod_eq_of_lt (by omega)
    rw [find_sequence_outer, find_sequence_outer_nat, hf, hnat]
    simp only [hmod]
    by_cases hc : lcp ((hay.take hay_len).drop i) (needle.take needle_len) = needle_len ∨
        (i + lcp ((hay.take hay_len).drop i) (needle.take needle_len) = hay_len ∧
          lcp ((hay.take hay_len).drop i) (needle.take needle_len) > 0)
    · rw [if_pos hc, if_pos hc]
      rfl
    · rw [if_neg hc, if_neg hc]
      exact ih (i + 1) (by omega)

/-- On a region shorter than `2^32` bytes the counters of `find_sequence` do not wrap:
it returns what the search with counters that do not wrap returns. -/
theorem find_sequence_eq_nat (hay : List Byte) (hay_len : Nat) (needle : List Byte)
    (needle_len : Nat) (hlen : hay_len ≤ hay.length) (hU : hay_len < UINT_RANGE)
    (hn : needle_len ≤ needle.length) :
    find_sequence hay hay_len needle needle_len
      = (find_sequence_nat hay hay_len needle needle_len).map Search.ofOption := by
  unfold find_sequence find_sequence_nat
  rw [Nat.min_eq_left (by omega)]
  exact find_sequence_outer_eq_nat hay hay_len needle needle_len hlen hU hn hay_len 0 (by omega)

theorem find_sequence_outer_zeros (n : Nat) (hn : UINT_RANGE ≤ n) :
    ∀ rem i, i + rem = UINT_RANGE →
      find_sequence_outer (List.replicate n 0) n [1] 1 rem i = some Search.never := by
  have hone : min 1 UINT_RANGE = 0 + 1 := by
    unfold UINT_RANGE; omega
  intro rem
  induction rem with
  | zero =>
    intro i _
    rw [find_sequence_outer, if_neg (by omega)]
  | succ rem ih =>
    intro i hi
    have hmod : (i + 0) % UINT_RANGE = i := Nat.mod_eq_of_lt (by omega)
    have hget : (List.replicate n (0 : Byte))[i]? = some 0 := by
      rw [List.getElem?_replicate, if_pos (by omega)]
    have hinner : find_sequence_inner (List.replicate n 0) n [1] 1 i (min 1 UINT_RANGE) 0
        = some (some 0) := by
      rw [hone, find_sequence_inner, hmod, if_pos (by omega), hget]
      rfl
    rw [find_sequence_outer, hinner]
    simp only
    rw [if_neg (by omega)]
    exact ih (i + 1) (by omega)

theorem no_one_in_zeros (n : Nat) :
    ¬ ([1] : List Byte) <:+: List.replicate n 0 ∧
      ¬ ∃ t : List Byte, t ≠ [] ∧ t <:+ List.replicate n 0 ∧ t <+: [1] := by
  have hmem : ∀ t : List Byte, t <:+: List.replicate n 0 → (1 : Byte) ∈ t → False := by
    intro t ht h1
    exact Nat.one_ne_zero (List.eq_of_mem_replicate (ht.subset h1))
  refine ⟨fun h => hmem _ h (List.mem_singleton.mpr rfl), ?_⟩
  rintro ⟨t, hne, hsuf, hpre⟩
  cases t with
  | nil => exact hne rfl
  | cons a as =>
    have ha : a = 1 := (List.cons_prefix_cons.mp hpre).1
    exact hmem _ hsuf.isInfix (by rw [ha]; exact List.mem_cons_self _ _)

/-- C9 (counter-example): a haystack of `2^32` zero bytes and the needle `1`.  The
needle neither occurs in the haystack nor has a prefix at its end, so the claim makes
the result null; but the counter `i` wraps to 0 before it reaches the length of the
haystack, and `find_sequence` does not return. -/
theorem find_sequence_never_returns :
    find_sequence (List.replicate UINT_RANGE 0) UINT_RANGE [1] 1 = some Search.never ∧
    (List.replicate UINT_RANGE (0 : Byte)).length = UINT_RANGE ∧
    ¬ ([1] : List Byte) <:+: List.replicate UINT_RANGE 0 ∧
    ¬ ∃ t : List Byte, t ≠ [] ∧ t <:+ List.replicate UINT_RANGE 0 ∧ t <+: [1] := by
  refine ⟨?_, List.length_replicate _ _, (no_one_in_zeros UINT_RANGE).1,
    (no_one_in_zeros UINT_RANGE).2⟩
  unfold find_sequence
  rw [Nat.min_self]
  exact find_sequence_outer_zeros UINT_RANGE (Nat.le_refl _) UINT_RANGE 0 (by omega)

/-- C9 (amended): for every haystack `h` of fewer than `2^32` bytes and every
non-empty needle `m`, `find_sequence` returns what the reference definition returns:
the position of the first full occurrence of `m` in `h`; failing that, the start of
the longest non-empty suffix of `h` that is a prefix of `m`; failing that, null.  The
result is null exactly when `m` neither occurs in `h` nor has a non-empty prefix
ending `h`. -/
theorem find_sequence_eq_ref (h m : List Byte) (hm : m ≠ []) (hlen : h.length < UINT_RANGE) :
    find_sequence h h.length m m.length = some (Search.ofOption (find_sequence_ref h m)) ∧
      (find_sequence h h.length m m.length = some Search.null ↔
        ¬ m <:+: h ∧ ¬ ∃ t, t ≠ [] ∧ t <:+ h ∧ t <+: m) := by
  obtain ⟨h1, h2⟩ := find_sequence_nat_eq_ref h m hm
  have heq := find_sequence_eq_nat h h.length m m.length (Nat.le_refl _) hlen (Nat.le_refl _)
  rw [h1] at heq h2
  rw [heq]
  refine ⟨rfl, ?_⟩
  rw [← h2]
  cases find_sequence_ref h m with
  | none => simp [Search.ofOption]
  | some r => simp [Search.ofOption]

/-- Witness for C9 (amended): the needle `1 2` in the haystack `0 1 2 1`. -/
theorem find_sequence_eq_ref_witness :
    find_sequence [0, 1, 2, 1] 4 [1, 2] 2
        = some (Search.ofOption (find_sequence_ref [0, 1, 2, 1] [1, 2])) ∧
      (find_sequence [0, 1, 2, 1] 4 [1, 2] 2 = some Search.null ↔
        ¬ [1, 2] <:+: [0, 1, 2, 1] ∧ ¬ ∃ t, t ≠ [] ∧ t <:+ [0, 1, 2, 1] ∧ t <+: [1, 2]) :=
  find_sequence_eq_ref [0, 1, 2, 1] [1, 2] (by decide) (by decide)

/-! ## One iteration of `nreceive_peek` -/

theorem memcpy_eq (dst : List Byte) (dstOff : Nat) (src : List Byte) (srcOff len : Nat)
    (h1 : dstOff + len ≤ dst.length) (h2 : srcOff + len ≤ src.length) :
    memcpy dst dstOff src srcOff len
      = some (dst.take dstOff ++ (src.drop srcOff).take len ++ dst.drop (dstOff + len)) := by
  unfold memcpy
  rw [if_pos ⟨h1, h2⟩]

theorem memcpy_length (dst : List Byte) (dstOff : Nat) (src : List Byte) (srcOff len : Nat)
    (h1 : dstOff + len ≤ dst.length) (h2 : srcOff + len ≤ src.length) :
    (dst.take dstOff ++ (src.drop srcOff).take len ++ dst.drop (dstOff + len)).length
      = dst.length := by
  simp only [List.length_append, List.length_take, List.length_drop]
  omega

theorem viable_full (b m : List Byte) (hv : Viable b m) (hl : m.length ≤ b.length) :
    m <+: b := by
  rcases hv with hv | ⟨hv, _⟩
  · exact hv
  · have hle := hv.length_le
    have := hv.eq_of_length (by omega)
    rw [this]

/-- Safety of one iteration: no access leaves its region, the fill count stays
within the destination, and a full destination starts with the marker. -/
theorem nreceive_peek_data_safe (len_dest : Nat) (peek : List Byte) (peek_len : Nat)
    (dest : List Byte) (nread : Nat) (tmp : List Byte)
    (hd : dest.length = len_dest) (hn : nread < len_dest)
    (hk : peek_len ≤ len_dest) (hp : peek_len ≤ peek.length) :
    ∃ d n, nreceive_peek_data len_dest peek peek_len dest nread tmp = some (d, n) ∧
      d.length = len_dest ∧ n ≤ len_dest ∧
      (n = len_dest → d.take peek_len = peek.take peek_len) := by
  have hml : (peek.take peek_len).length = peek_len := by
    rw [List.length_take]; omega
  unfold nreceive_peek_data
  by_cases h0 : nread = 0
  · simp only [h0, if_true]
    obtain ⟨r, hr, hspec⟩ := find_sequence_nat_spec tmp tmp.length peek peek_len (Nat.le_refl _) hp
    rw [List.take_length] at hspec
    rw [hr]
    cases r with
    | none => exact ⟨dest, 0, rfl, hd, Nat.zero_le _, fun h => by omega⟩
    | some off =>
      obtain ⟨_, hoff, hv, _⟩ := hspec
      have h1 : 0 + min (tmp.length - off) len_dest ≤ dest.length := by omega
      have h2 : off + min (tmp.length - off) len_dest ≤ tmp.length := by omega
      simp only [memcpy_eq dest 0 tmp off _ h1 h2]
      refine ⟨_, _, rfl, ?_, by omega, ?_⟩
      · rw [memcpy_length dest 0 tmp off _ h1 h2, hd]
      · intro hfull
        have hlen : (tmp.drop off).length = tmp.length - off := List.length_drop off tmp
        have hpre := viable_full _ _ hv (by rw [hml, hlen]; omega)
        have hmin : min (tmp.length - off) len_dest = len_dest := by omega
        rw [hmin, List.take_zero, List.nil_append, List.take_append_of_le_length
          (by rw [List.length_take, hlen]; omega), List.take_take,
          Nat.min_eq_left hk]
        have := List.prefix_iff_eq_take.mp hpre
        rw [hml] at this
        exact this.symm
  · simp only [h0, if_false]
    have h1 : nread + min tmp.length (len_dest - nread) ≤ dest.length := by omega
    have h2 : 0 + min tmp.length (len_dest - nread) ≤ tmp.length := by omega
    simp only [memcpy_eq dest nread tmp 0 _ h1 h2]
    have hl1 := memcpy_length dest nread tmp 0 _ h1 h2
    generalize hd1 : dest.take nread ++ (tmp.drop 0).take (min tmp.length (len_dest - nread))
      ++ dest.drop (nread + min tmp.length (len_dest - nread)) = d1 at hl1 ⊢
    generalize hn1 : nread + min tmp.length (len_dest - nread) = n1 at h1 ⊢
    have hcmp : memcmp_ne peek d1 peek_len
        = some (decide (peek.take peek_len ≠ d1.take peek_len)) := by
      unfold memcmp_ne
      rw [if_pos ⟨hp, by omega⟩]
    rw [hcmp]
    by_cases heq : peek.take peek_len = d1.take peek_len
    · simp only [heq, ne_eq, not_true_eq_false, decide_False]
      exact ⟨d1, n1, rfl, by omega, by omega, fun _ => rfl⟩
    · simp only [heq, ne_eq, not_false_eq_true, decide_True]
      obtain ⟨r, hr, hspec⟩ := find_sequence_nat_spec d1 n1 peek peek_len (by omega) hp
      rw [hr]
      cases r with
      | none => exact ⟨d1, 0, rfl, by omega, Nat.zero_le _, fun h => by omega⟩
      | some off =>
        obtain ⟨_, hoff, hv, _⟩ := hspec
        have hl2 : (d1.take n1).length = n1 := by rw [List.length_take]; omega
        rw [hl2] at hoff
        have h3 : 0 + (n1 - off) ≤ d1.length := by omega
        have h4 : off + (n1 - off) ≤ d1.length := by omega
        simp only [memcpy_eq d1 0 d1 off _ h3 h4]
        refine ⟨_, _, rfl, ?_, by omega, ?_⟩
        · rw [memcpy_length d1 0 d1 off _ h3 h4]; omega
        · intro hfull
          exfalso
          have hoff0 : off = 0 := by omega
          have hn1L : n1 = d1.length := by omega
          rw [hoff0, List.drop_zero, hn1L, List.take_length] at hv
          have hpre := viable_full _ _ hv (by rw [hml]; omega)
          have := List.prefix_iff_eq_take.mp hpre
          rw [hml] at this
          exact heq this

/-! ## Safety of the `nreceive_peek` loop -/

theorem nreceive_peek_loop_safe (len_dest : Nat) (peek : List Byte) (peek_len : Nat)
    (timeout : Int) (hk : peek_len ≤ len_dest) (hp : peek_len ≤ peek.length) :
    ∀ (script : List ReadEvent) (s : Serial) (sys : List SysCall) (dest : List Byte)
      (nread : Nat), dest.length = len_dest → nread ≤ len_dest →
      (nread = len_dest → dest.take peek_len = peek.take peek_len) →
      ∃ res, nreceive_peek_loop len_dest peek peek_len timeout script s sys dest nread
          = some res ∧
        res.dest.length = len_dest ∧ res.nread ≤ len_dest ∧
        (∀ v, res.outcome = Outcome.returned v → v < 0 ∨ (0 ≤ v ∧ v ≤ len_dest)) ∧
        (0 < len_dest → res.outcome = Outcome.returned len_dest →
          res.dest.take peek_len = peek.take peek_len) := by
  intro script
  induction script with
  | nil =>
    intro s sys dest nread hd hn hfull
    rw [nreceive_peek_loop]
    by_cases hlt : nread < len_dest
    · rw [if_pos hlt]
      by_cases ht : timeout < 0
      · rw [if_pos ht]
        refine ⟨_, rfl, hd, hn, ?_, ?_⟩
        · intro v hv; cases hv
        · intro _ hv; cases hv
      · rw [if_neg ht]
        refine ⟨_, rfl, hd, hn, ?_, ?_⟩
        · intro v hv
          injection hv with hv
          right; omega
        · intro _ hv
          injection hv with hv
          omega
    · rw [if_neg hlt]
      refine ⟨_, rfl, hd, hn, ?_, ?_⟩
      · intro v hv
        injection hv with hv
        right; omega
      · intro _ _
        exact hfull (by omega)
  | cons ev rest ih =>
    intro s sys dest nread hd hn hfull
    by_cases hlt : nread < len_dest
    · cases ev with
      | fail errno expired =>
        rw [nreceive_peek_loop, if_pos hlt]
        by_cases he : errno = EAGAIN
        · rw [if_pos he]
          by_cases ht : timeout = 0 ∨ (timeout > 0 ∧ expired = true)
          · rw [if_pos ht]
            refine ⟨_, rfl, hd, hn, ?_, ?_⟩
            · intro v hv
              injection hv with hv
              right; omega
            · intro _ hv
              injection hv with hv
              omega
          · rw [if_neg ht]
            exact ih s sys dest nread hd hn hfull
        · rw [if_neg he]
          refine ⟨_, rfl, hd, hn, ?_, ?_⟩
          · intro v hv
            injection hv with hv
            omega
          · intro hpos hv
            injection hv with hv
            omega
      | bytes tmp =>
        rw [nreceive_peek_loop, if_pos hlt]
        by_cases h0 : tmp.length = 0
        · rw [if_pos h0]
          exact ih _ _ dest nread hd hn hfull
        · rw [if_neg h0]
          obtain ⟨d, n, hstep, hd1, hn1, hfull1⟩ :=
            nreceive_peek_data_safe len_dest peek peek_len dest nread tmp hd hlt hk hp
          rw [hstep]
          exact ih s sys d n hd1 hn1 hfull1
    · have hout : nreceive_peek_loop len_dest peek peek_len timeout (ev :: rest) s sys dest nread
          = some ⟨Outcome.returned nread, dest, nread, s, sys⟩ := by
        cases ev <;> rw [nreceive_peek_loop, if_neg hlt]
      rw [hout]
      refine ⟨_, rfl, hd, hn, ?_, ?_⟩
      · intro v hv
        injection hv with hv
        right; omega
      · intro _ _
        exact hfull (by omega)

/-- C2: whatever the script of read results, for a marker of length `k` and a
destination of `L` bytes with `0 < k ≤ L`, if `nreceive_peek` returns `L` then the
first `k` bytes of the destination are the marker. -/
theorem nreceive_peek_full_frame_starts_with_marker (s : Serial) (script : List ReadEvent)
    (dest : List Byte) (len_dest : Nat) (peek : List Byte) (timeout : Int) (res : PeekResult)
    (hk0 : 0 < peek.length) (hk : peek.length ≤ len_dest) (hd : dest.length = len_dest)
    (hrun : nreceive_peek s script dest len_dest peek peek.length timeout = some res)
    (hret : res.outcome = Outcome.returned len_dest) :
    res.dest.take peek.length = peek := by
  obtain ⟨res1, hres, _, _, _, hfull⟩ :=
    nreceive_peek_loop_safe len_dest peek peek.length timeout hk (Nat.le_refl _)
      script s [] dest 0 hd (Nat.zero_le _) (fun h => by omega)
  unfold nreceive_peek at hrun
  rw [hrun] at hres
  injection hres with hres
  subst hres
  have := hfull (by omega) hret
  rw [List.take_length] at this
  exact this

/-- Witness for C2: the marker `1 2` after one byte of garbage, read in two pieces. -/
theorem nreceive_peek_full_frame_starts_with_marker_witness :
    nreceive_peek openPort
        [ReadEvent.bytes [0, 1], ReadEvent.fail EAGAIN false, ReadEvent.bytes [2, 3, 4]]
        [9, 9, 9] 3 [1, 2] ([1, 2] : List Byte).length (-1)
      = some ⟨Outcome.returned 3, [1, 2, 3], 3, openPort, []⟩ ∧
    (⟨Outcome.returned 3, [1, 2, 3], 3, openPort, []⟩ : PeekResult).dest.take
      ([1, 2] : List Byte).length = [1, 2] :=
  ⟨by decide,
    nreceive_peek_full_frame_starts_with_marker openPort
      [ReadEvent.bytes [0, 1], ReadEvent.fail EAGAIN false, ReadEvent.bytes [2, 3, 4]]
      [9, 9, 9] 3 [1, 2] (-1) ⟨Outcome.returned 3, [1, 2, 3], 3, openPort, []⟩
      (by decide) (by decide) (by decide) (by decide) (by decide)⟩

/-- C10: whatever the script of read results, for a marker of length `k` and a
destination region of exactly `L` bytes with `k ≤ L`, `nreceive_peek` runs without any
access outside a region (the destination has `L` bytes and the scratch region has the
bytes of the last read, so an index beyond them would make the run `none`), the fill
count is at most `L`, and the value returned is negative or between `0` and `L`.  The
statement covers every moment of a run, since every prefix of a script is a script. -/
theorem nreceive_peek_in_bounds (s : Serial) (script : List ReadEvent)
    (dest : List Byte) (len_dest : Nat) (peek : List Byte) (timeout : Int)
    (hk : peek.length ≤ len_dest) (hd : dest.length = len_dest) :
    ∃ res, nreceive_peek s script dest len_dest peek peek.length timeout = some res ∧
      res.dest.length = len_dest ∧ res.nread ≤ len_dest ∧
      (∀ v, res.outcome = Outcome.returned v → v < 0 ∨ (0 ≤ v ∧ v ≤ len_dest)) := by
  obtain ⟨res, hres, h1, h2, h3, _⟩ :=
    nreceive_peek_loop_safe len_dest peek peek.length timeout hk (Nat.le_refl _)
      script s [] dest 0 hd (Nat.zero_le _) (fun h => by
        have hz : peek.length = 0 := by omega
        rw [hz, List.take_zero, List.take_zero])
  exact ⟨res, hres, h1, h2, h3⟩

/-- Witness for C10: a false start `1 1` followed by the marker `1 2`. -/
theorem nreceive_peek_in_bounds_witness :
    ∃ res, nreceive_peek openPort
        [ReadEvent.bytes [0, 1], ReadEvent.bytes [1, 2, 3], ReadEvent.fail 5 false]
        [9, 9, 9] 3 [1, 2] ([1, 2] : List Byte).length (-1) = some res ∧
      res.dest.length = 3 ∧ res.nread ≤ 3 ∧
      (∀ v, res.outcome = Outcome.returned v → v < 0 ∨ (0 ≤ v ∧ v ≤ (3 : Nat))) :=
  nreceive_peek_in_bounds openPort
    [ReadEvent.bytes [0, 1], ReadEvent.bytes [1, 2, 3], ReadEvent.fail 5 false]
    [9, 9, 9] 3 [1, 2] (-1) (by decide) (by decide)

/-! ## The fixed-size read -/

theorem receive_loop_full (nmax : Nat) (block : Bool) (script : List ReadEvent) (s : Serial)
    (sys : List SysCall) (buffer : List Byte) (nread : Nat) (h : ¬ nread < nmax) :
    receive_loop nmax block script s sys buffer nread
      = some ⟨Outcome.returned nread, buffer, nread, script, s, sys⟩ := by
  cases script with
  | nil => rw [receive_loop, if_neg h]
  | cons ev rest => cases ev <;> rw [receive_loop, if_neg h]

theorem receive_loop_blocking (nmax : Nat) (post : List ReadEvent) :
    ∀ (pre : List ReadEvent) (s : Serial) (sys : List SysCall) (buffer : List Byte)
      (nread : Nat), (∀ ev ∈ pre, Benign ev) → nread ≤ nmax →
      nmax ≤ nread + (stream pre).length → nmax ≤ buffer.length →
      ∃ res, receive_loop nmax true (pre ++ post) s sys buffer nread = some res ∧
        res.outcome = Outcome.returned nmax ∧
        res.buffer.take nmax = buffer.take nread ++ (stream pre).take (nmax - nread) := by
  intro pre
  induction pre with
  | nil =>
    intro s sys buffer nread _ h1 h2 _
    simp only [stream, List.length_nil, Nat.add_zero] at h2
    have hn : nread = nmax := by omega
    rw [List.nil_append, receive_loop_full nmax true post s sys buffer nread (by omega)]
    refine ⟨_, rfl, by rw [hn], ?_⟩
    simp [hn, stream]
  | cons ev pre ih =>
    intro s sys buffer nread hb h1 h2 h3
    have hbt : ∀ e ∈ pre, Benign e := fun e he => hb e (List.mem_cons_of_mem _ he)
    have hbe : Benign ev := hb ev (List.mem_cons_self _ _)
    by_cases hlt : nread < nmax
    · cases ev with
      | fail errno expired =>
        have he : errno = EAGAIN := hbe
        rw [List.cons_append, receive_loop, if_pos hlt, if_pos he, if_pos rfl]
        simp only [stream] at h2 ⊢
        exact ih s sys buffer nread hbt h1 h2 h3
      | bytes c =>
        have hc : c ≠ [] := hbe
        have hcl : ¬ c.length = 0 := fun h => hc (List.length_eq_zero.mp h)
        simp only [stream, List.length_append] at h2
        rw [List.cons_append, receive_loop, if_pos hlt, if_neg hcl]
        by_cases hfit : c.length ≤ nmax - nread
        · rw [if_pos hfit, memcpy_eq buffer nread c 0 c.length (by omega) (by omega)]
          simp only
          obtain ⟨res, hres, hout, hbuf⟩ := ih s sys
            (buffer.take nread ++ (c.drop 0).take c.length ++ buffer.drop (nread + c.length))
            (nread + c.length) hbt (by omega) (by omega)
            (by rw [memcpy_length buffer nread c 0 c.length (by omega) (by omega)]; exact h3)
          refine ⟨res, hres, hout, ?_⟩
          rw [hbuf]
          simp only [List.drop_zero, List.take_length, stream]
          have e1 : (buffer.take nread ++ c ++ buffer.drop (nread + c.length)).take
              (nread + c.length) = buffer.take nread ++ c := by
            rw [List.take_append_of_le_length (by
              simp only [List.length_append, List.length_take]; omega)]
            apply List.take_of_length_le
            simp only [List.length_append, List.length_take]; omega
          rw [e1, @List.take_append_eq_append_take _ c _ _,
            List.take_of_length_le (l := c) (by omega), List.append_assoc]
          rw [Nat.sub_add_eq]
        · rw [if_neg hfit, memcpy_eq buffer nread c 0 (nmax - nread) (by omega) (by omega)]
          simp only
          refine ⟨_, rfl, ?_, ?_⟩
          · simp only
            congr 1
            omega
          · simp only [List.drop_zero, stream]
            have hq : nread + (nmax - nread) = nmax := by omega
            rw [hq, List.take_append_of_le_length (by
              simp only [List.length_append, List.length_take]; omega)]
            rw [List.take_of_length_le (by
              simp only [List.length_append, List.length_take]; omega)]
            rw [@List.take_append_of_le_length _ c _ _ (by omega)]
    · have hn : nread = nmax := by omega
      rw [receive_loop_full nmax true _ s sys buffer nread hlt]
      refine ⟨_, rfl, by rw [hn], ?_⟩
      simp [hn]

/-- C3: for every `N` and every script whose first part `pre` holds only data and
would-block results and delivers at least `N` bytes (whatever follows it), the call
`receive(buffer, N, true)` on a buffer of at least `N` bytes returns `N` and the first
`N` bytes of the buffer are the first `N` bytes of the stream, in order. -/
theorem receive_blocking_exact (s : Serial) (pre post : List ReadEvent) (buffer : List Byte)
    (nmax : Nat) (hb : ∀ ev ∈ pre, Benign ev) (hs : nmax ≤ (stream pre).length)
    (hbuf : nmax ≤ buffer.length) :
    ∃ res, receive s (pre ++ post) buffer nmax true = some res ∧
      res.outcome = Outcome.returned nmax ∧
      res.buffer.take nmax = (stream pre).take nmax := by
  obtain ⟨res, hres, hout, hb⟩ := receive_loop_blocking nmax post pre s [] buffer 0 hb
    (Nat.zero_le _) (by omega) hbuf
  refine ⟨res, hres, hout, ?_⟩
  rw [hb]
  simp

/-- Witness for C3: three bytes asked, delivered as `1`, a would-block, then `2 3 4`,
followed by a close. -/
theorem receive_blocking_exact_witness :
    ∃ res, receive openPort
        ([ReadEvent.bytes [1], ReadEvent.fail EAGAIN false, ReadEvent.bytes [2, 3, 4]]
          ++ [ReadEvent.bytes []]) [0, 0, 0] 3 true = some res ∧
      res.outcome = Outcome.returned (3 : Nat) ∧
      res.buffer.take 3 = (stream [ReadEvent.bytes [1], ReadEvent.fail EAGAIN false,
        ReadEvent.bytes [2, 3, 4]]).take 3 :=
  receive_blocking_exact openPort
    [ReadEvent.bytes [1], ReadEvent.fail EAGAIN false, ReadEvent.bytes [2, 3, 4]]
    [ReadEvent.bytes []] [0, 0, 0] 3 (by decide) (by decide) (by decide)

theorem splice_take (buffer x : List Byte) (n : Nat) (h : n + x.length ≤ buffer.length) :
    (buffer.take n ++ x ++ buffer.drop (n + x.length)).take (n + x.length)
      = buffer.take n ++ x := by
  apply List.take_left'
  simp only [List.length_append, List.length_take]
  omega

theorem receive_loop_nonblocking (nmax : Nat) :
    ∀ (script : List ReadEvent) (s : Serial) (sys : List SysCall) (buffer : List Byte)
      (nread : Nat), (∀ ev ∈ script, Benign ev) → nread ≤ nmax → nmax ≤ buffer.length →
      ∃ res r, receive_loop nmax false script s sys buffer nread = some res ∧
        res.outcome = Outcome.returned ((nread + r : Nat) : Int) ∧
        res.nread = nread + r ∧
        r = min (nmax - nread) (bytesBeforeBlock script) ∧
        res.buffer.take (nread + r) = buffer.take nread ++ (stream script).take r ∧
        stream script = (stream script).take r ++ stream res.script ∧
        (∀ ev ∈ res.script, Benign ev) ∧
        res.buffer.length = buffer.length := by
  intro script
  induction script with
  | nil =>
    intro s sys buffer nread _ h1 h2
    by_cases hlt : nread < nmax
    · rw [receive_loop, if_pos hlt]
      refine ⟨_, 0, rfl, rfl, rfl, ?_, ?_, ?_, ?_, rfl⟩
      · simp [bytesBeforeBlock]
      · simp [stream]
      · simp [stream]
      · intro ev hev; cases hev
    · rw [receive_loop_full nmax false _ s sys buffer nread hlt]
      refine ⟨_, 0, rfl, rfl, rfl, ?_, ?_, ?_, ?_, rfl⟩
      · simp [bytesBeforeBlock]
      · simp [stream]
      · simp [stream]
      · intro ev hev; cases hev
  | cons ev rest ih =>
    intro s sys buffer nread hb h1 h2
    have hbt : ∀ e ∈ rest, Benign e := fun e he => hb e (List.mem_cons_of_mem _ he)
    have hbe : Benign ev := hb ev (List.mem_cons_self _ _)
    by_cases hlt : nread < nmax
    · cases ev with
      | fail errno expired =>
        have he : errno = EAGAIN := hbe
        rw [receive_loop, if_pos hlt, if_pos he, if_neg (by decide)]
        refine ⟨_, 0, rfl, rfl, rfl, ?_, ?_, ?_, hbt, rfl⟩
        · simp [bytesBeforeBlock]
        · simp
        · simp [stream]
      | bytes c =>
        have hc : c ≠ [] := hbe
        have hcl : ¬ c.length = 0 := fun h => hc (List.length_eq_zero.mp h)
        rw [receive_loop, if_pos hlt, if_neg hcl]
        by_cases hfit : c.length ≤ nmax - nread
        · rw [if_pos hfit, memcpy_eq buffer nread c 0 c.length (by omega) (by omega)]
          simp only [List.drop_zero, List.take_length]
          have hl1 : (buffer.take nread ++ c ++ buffer.drop (nread + c.length)).length
              = buffer.length := by
            simp only [List.length_append, List.length_take, List.length_drop]
            omega
          obtain ⟨res, r, hres, hout, hnr, hr, hbuf, hstr, hben, hlen⟩ := ih s sys
            (buffer.take nread ++ c ++ buffer.drop (nread + c.length))
            (nread + c.length) hbt (by omega) (by omega)
          refine ⟨res, c.length + r, hres, ?_, ?_, ?_, ?_, ?_, hben, by omega⟩
          · rw [hout]; congr 2; omega
          · rw [hnr]; omega
          · simp only [bytesBeforeBlock]; omega
          · rw [← Nat.add_assoc, hbuf, splice_take buffer c nread (by omega)]
            simp only [stream]
            rw [@List.take_append_eq_append_take _ c _ _,
              List.take_of_length_le (l := c) (by omega), List.append_assoc]
            congr 3
            omega
          · simp only [stream]
            rw [@List.take_append_eq_append_take _ c _ _,
              List.take_of_length_le (l := c) (by omega), List.append_assoc]
            congr 1
            have e : c.length + r - c.length = r := by omega
            rw [e]
            exact hstr
        · rw [if_neg hfit, memcpy_eq buffer nread c 0 (nmax - nread) (by omega) (by omega)]
          simp only [List.drop_zero]
          have hcl2 : (c.take (nmax - nread)).length = nmax - nread := by
            rw [List.length_take]; omega
          refine ⟨_, nmax - nread, rfl, rfl, rfl, ?_, ?_, ?_, ?_, ?_⟩
          · simp only [bytesBeforeBlock]; omega
          · simp only
            have := splice_take buffer (c.take (nmax - nread)) nread (by omega)
            rw [hcl2] at this
            rw [this]
            simp only [stream]
            rw [@List.take_append_of_le_length _ c _ _ (by omega)]
          · simp only [stream]
            rw [@List.take_append_of_le_length _ c _ _ (by omega),
              ← List.append_assoc (c.take _), List.take_append_drop]
          · intro e he
            rcases List.mem_cons.mp he with h | h
            · rw [h]
              show c.drop (nmax - nread) ≠ []
              intro hnil
              have := List.length_drop (nmax - nread) c
              rw [hnil] at this
              simp at this; omega
            · exact hbt e h
          · simp only [List.length_append, List.length_take, List.length_drop]
            omega
    · rw [receive_loop_full nmax false _ s sys buffer nread hlt]
      refine ⟨_, 0, rfl, rfl, rfl, ?_, ?_, ?_, hb, rfl⟩
      · omega
      · simp
      · simp

theorem receive_calls_spec :
    ∀ (ns : List Nat) (s : Serial) (script : List ReadEvent) (buffer : List Byte),
      (∀ ev ∈ script, Benign ev) → (∀ n ∈ ns, n ≤ buffer.length) →
      ∃ outs script1, receive_calls ns s script buffer = some (outs, script1) ∧
        List.Forall₂ (fun n (o : Outcome × List Byte) =>
          ∃ r : Nat, o.1 = Outcome.returned r ∧ r ≤ n ∧ o.2.length = r) ns outs ∧
        stream script = (outs.map Prod.snd).flatten ++ stream script1 := by
  intro ns
  induction ns with
  | nil =>
    intro s script buffer _ _
    exact ⟨[], script, rfl, List.Forall₂.nil, by simp⟩
  | cons n ns ih =>
    intro s script buffer hb hn
    obtain ⟨res, r, hres, hout, hnr, hr, hbuf, hstr, hben, hlen⟩ :=
      receive_loop_nonblocking n script s [] buffer 0 hb (Nat.zero_le _)
        (hn n (List.mem_cons_self _ _))
    obtain ⟨outs, script1, hcalls, hall, hstream⟩ := ih res.serial res.script res.buffer hben
      (fun k hk => by rw [hlen]; exact hn k (List.mem_cons_of_mem _ hk))
    have hres2 : receive s script buffer n false = some res := hres
    simp only [Nat.zero_add, List.take_zero, List.nil_append] at hout hnr hbuf
    refine ⟨(res.outcome, res.buffer.take res.nread) :: outs, script1, ?_, ?_, ?_⟩
    · rw [receive_calls, hres2]
      simp only [hcalls]
    · have hlb : n ≤ res.buffer.length := by
        rw [hlen]; exact hn n (List.mem_cons_self _ _)
      refine List.Forall₂.cons ⟨r, hout, by omega, ?_⟩ hall
      simp only [List.length_take]
      omega
    · simp only [List.map_cons, List.flatten_cons]
      rw [hnr, hbuf, List.append_assoc, ← hstream]
      exact hstr

/-- C4: for every script of data chunks and would-blocks, a call
`receive(buffer, n, false)` returns the number of bytes there before the first
would-block, at most `n`; and for every sequence of such calls each call returns a
count `r` with `0 ≤ r ≤ n` and delivers `r` bytes, the bytes delivered by the
successive calls, put end to end, are the beginning of the stream of that total
length, and the bytes not delivered are exactly what the script still holds. -/
theorem receive_nonblocking_no_loss (s : Serial) (script : List ReadEvent) (ns : List Nat)
    (buffer : List Byte) (hb : ∀ ev ∈ script, Benign ev) (hn : ∀ n ∈ ns, n ≤ buffer.length) :
    (∀ n, n ≤ buffer.length → ∃ res, receive s script buffer n false = some res ∧
      res.outcome = Outcome.returned ((min n (bytesBeforeBlock script) : Nat) : Int)) ∧
    ∃ outs script1, receive_calls ns s script buffer = some (outs, script1) ∧
      List.Forall₂ (fun n (o : Outcome × List Byte) =>
        ∃ r : Nat, o.1 = Outcome.returned r ∧ r ≤ n ∧ o.2.length = r) ns outs ∧
      (outs.map Prod.snd).flatten
        = (stream script).take ((outs.map (fun o => o.2.length)).sum) ∧
      stream script = (outs.map Prod.snd).flatten ++ stream script1 := by
  refine ⟨?_, ?_⟩
  · intro n hnb
    obtain ⟨res, r, hres, hout, _, hr, _⟩ :=
      receive_loop_nonblocking n script s [] buffer 0 hb (Nat.zero_le _) hnb
    refine ⟨res, hres, ?_⟩
    rw [hout, hr]
    simp
  · obtain ⟨outs, script1, hcalls, hall, hstream⟩ := receive_calls_spec ns s script buffer hb hn
    refine ⟨outs, script1, hcalls, hall, ?_, hstream⟩
    have hlen : ((outs.map Prod.snd).flatten).length
        = (outs.map (fun o => o.2.length)).sum := by
      rw [List.length_flatten, List.map_map]
      rfl
    rw [← hlen]
    conv_rhs => rw [hstream]
    rw [List.take_left]

/-- Witness for C4: two calls for two bytes each on a stream delivered as `1 2 3`, a
would-block, then `4`. -/
theorem receive_nonblocking_no_loss_witness :
    (∀ n, n ≤ ([0, 0] : List Byte).length → ∃ res, receive openPort
        [ReadEvent.bytes [1, 2, 3], ReadEvent.fail EAGAIN false, ReadEvent.bytes [4]]
        [0, 0] n false = some res ∧
      res.outcome = Outcome.returned ((min n (bytesBeforeBlock
        [ReadEvent.bytes [1, 2, 3], ReadEvent.fail EAGAIN false, ReadEvent.bytes [4]]) : Nat)
        : Int)) ∧
    ∃ outs script1, receive_calls [2, 2] openPort
        [ReadEvent.bytes [1, 2, 3], ReadEvent.fail EAGAIN false, ReadEvent.bytes [4]]
        [0, 0] = some (outs, script1) ∧
      List.Forall₂ (fun n (o : Outcome × List Byte) =>
        ∃ r : Nat, o.1 = Outcome.returned r ∧ r ≤ n ∧ o.2.length = r) [2, 2] outs ∧
      (outs.map Prod.snd).flatten
        = (stream [ReadEvent.bytes [1, 2, 3], ReadEvent.fail EAGAIN false,
            ReadEvent.bytes [4]]).take ((outs.map (fun o => o.2.length)).sum) ∧
      stream [ReadEvent.bytes [1, 2, 3], ReadEvent.fail EAGAIN false, ReadEvent.bytes [4]]
        = (outs.map Prod.snd).flatten ++ stream script1 :=
  receive_nonblocking_no_loss openPort
    [ReadEvent.bytes [1, 2, 3], ReadEvent.fail EAGAIN false, ReadEvent.bytes [4]] [2, 2]
    [0, 0] (by decide) (by decide)

/-! ## Connection management -/

theorem lookup_removeFile (files : List (List Char × List Char)) (path : List Char) :
    (removeFile files path).lookup path = none := by
  induction files with
  | nil => rfl
  | cons e rest ih =>
    unfold removeFile at ih ⊢
    by_cases h : e.1 = path
    · simp only [List.filter, h, ne_eq, not_true_eq_false, decide_False]
      exact ih
    · simp only [List.filter, h, ne_eq, not_false_eq_true, decide_True]
      have hne : (path == e.1) = false := by
        rw [beq_eq_false_iff_ne]
        exact fun h2 => h h2.symm
      rw [show e = (e.1, e.2) from rfl, List.lookup_cons, hne]
      exact ih

theorem lookup_writeFile (files : List (List Char × List Char)) (path old text : List Char) :
    (writeFile files path old text).lookup path = some (text ++ old.drop text.length) := by
  unfold writeFile
  rw [List.lookup_cons, beq_self_eq_true]

/-- C5 (counter-example): the lock file of `ttyUSB0` records the process 4242, which no
longer exists, and the process may neither remove the file nor open it for writing:
`_lockDevice` returns `-1`, and the stale file is still there. -/
theorem lockDevice_stale_not_acquired :
    (lockedWorld [1, 777]).files.lookup (lockfilePath closedPort.port) = some "4242".toList ∧
    procDirExists (lockedWorld [1, 777]) (parse_int "4242".toList) = false ∧
    (_lockDevice closedPort osLockDenied (lockedWorld [1, 777])).1 = -1 ∧
    (_lockDevice closedPort osLockDenied (lockedWorld [1, 777])).2.2.files.lookup
      (lockfilePath closedPort.port) = some "4242".toList := by
  decide

/-- C5 (amended): when the lock file of the device's base name exists, (1) if it
records the identifier of a live process, `_lockDevice` returns 1 and leaves the world,
the lock file included, as it was; (2) if the process it records no longer exists and
the system lets this process remove the file, create it and write to it, then
`_lockDevice` returns 0, holds the new descriptor, and the lock file holds exactly the
identifier of the current process; (3) if the recorded process no longer exists and
the lock file cannot be created or written, `_lockDevice` returns `-1`. -/
theorem lockDevice_live_or_stale (s : Serial) (os : OsOutcome) (w : World)
    (content : List Char) (hfile : w.files.lookup (lockfilePath s.port) = some content) :
    (procDirExists w (parse_int content) = true →
      _lockDevice s os w = (1, ⟨s.port, s.baud, s.fd, s.lockfd, lockfilePath s.port⟩, w)) ∧
    (procDirExists w (parse_int content) = false → os.unlinkOk = true →
      0 ≤ os.lockOpen.value → 0 ≤ os.lockWrite.value →
      (_lockDevice s os w).1 = 0 ∧
      (_lockDevice s os w).2.1.lockfd = os.lockOpen.value ∧
      (_lockDevice s os w).2.2.files.lookup (lockfilePath s.port) = some (pid_str w)) ∧
    (procDirExists w (parse_int content) = false →
      os.lockOpen.value < 0 ∨ os.lockWrite.value < 0 → (_lockDevice s os w).1 = -1) := by
  refine ⟨?_, ?_, ?_⟩
  · intro hlive
    simp only [_lockDevice, hfile, hlive, if_true]
  · intro hdead hunlink hopen hwrite
    have h1 : ¬ os.lockOpen.value < 0 := by omega
    have h2 : ¬ os.lockWrite.value < 0 := by omega
    simp only [_lockDevice, hfile, hdead, hunlink, if_true, lockDevice_create, h1, h2,
      if_false, lookup_removeFile, lookup_writeFile, Bool.false_eq_true, Option.getD_none,
      List.drop_nil, List.append_nil, and_self, pid_str]
  · intro hdead hfail
    simp only [_lockDevice, hfile, hdead, lockDevice_create, Bool.false_eq_true, if_false]
    by_cases h1 : os.lockOpen.value < 0
    · simp only [h1, if_true]
    · have h2 : os.lockWrite.value < 0 := by
        rcases hfail with h | h
        · exact absurd h h1
        · exact h
      simp only [h1, h2, if_true, if_false]

/-- Witness for C5 (amended): the lock file of `ttyUSB0` records the process 4242,
alive in the first world and gone in the second. -/
theorem lockDevice_live_or_stale_witness :
    _lockDevice closedPort osAllOk (lockedWorld [1, 4242])
      = (1, ⟨closedPort.port, closedPort.baud, closedPort.fd, closedPort.lockfd,
          lockfilePath closedPort.port⟩, lockedWorld [1, 4242]) ∧
    ((_lockDevice closedPort osAllOk (lockedWorld [1])).1 = 0 ∧
      (_lockDevice closedPort osAllOk (lockedWorld [1])).2.1.lockfd = osAllOk.lockOpen.value ∧
      (_lockDevice closedPort osAllOk (lockedWorld [1])).2.2.files.lookup
        (lockfilePath closedPort.port) = some (pid_str (lockedWorld [1]))) ∧
    (_lockDevice closedPort osLockDenied (lockedWorld [1])).1 = -1 :=
  ⟨(lockDevice_live_or_stale closedPort osAllOk (lockedWorld [1, 4242]) "4242".toList
      (by decide)).1 (by decide),
    (lockDevice_live_or_stale closedPort osAllOk (lockedWorld [1]) "4242".toList
      (by decide)).2.1 (by decide) (by decide) (by decide) (by decide),
    (lockDevice_live_or_stale closedPort osLockDenied (lockedWorld [1]) "4242".toList
      (by decide)).2.2 (by decide) (by decide)⟩

/-- C6 (the code at the failing input): the connection of `/dev/ttyUSB0` holds the
device descriptor 3 and the lock descriptor 4.  After `closeSerial` the object is
unchanged, so `isOpen()` is still true, and a second `closeSerial` closes the
descriptors 3 and 4 and unlinks the lock file once more; the same holds when
`closeSerial` is called by `receive` on a read of zero bytes. -/
theorem closeSerial_keeps_handles :
    isOpen (closeSerial openPort).2.1 = true ∧
    (closeSerial openPort).2.1.lockfd = 4 ∧
    (closeSerial (closeSerial openPort).2.1).2.2
      = [SysCall.ioctlFlush 3, SysCall.close 3, SysCall.close 4,
          SysCall.unlink "/var/lock/LCK..ttyUSB0".toList] ∧
    (∃ res, receive openPort [ReadEvent.bytes []] [0] 1 false = some res ∧
      res.sys = [SysCall.ioctlFlush 3, SysCall.close 3, SysCall.close 4,
          SysCall.unlink "/var/lock/LCK..ttyUSB0".toList] ∧
      isOpen res.serial = true) := by
  refine ⟨by decide, by decide, by decide, ?_⟩
  exact ⟨_, rfl, by decide, by decide⟩

/-- C7 (counter-example): two failures of `openSerial` on a closed connection.  First,
the device is opened as descriptor 3 and is not a terminal: `openSerial` fails with
`-1`, `isOpen()` is true afterwards and the descriptor 3 is still open.  Second, the
lock file is created as descriptor 4 and the write of the process identifier fails:
`openSerial` fails with `-1`, the lock descriptor 4 is still held and open, and the
lock file, empty, is still there. -/
theorem openSerial_failure_leaves_descriptor :
    ((openSerial closedPort osNotTty freeWorld).1 = -1 ∧
      isOpen (openSerial closedPort osNotTty freeWorld).2.1 = true ∧
      (3 : Int) ∈ (openSerial closedPort osNotTty freeWorld).2.2.openFds) ∧
    ((openSerial closedPort osWriteFails freeWorld).1 = -1 ∧
      (openSerial closedPort osWriteFails freeWorld).2.1.lockfd = 4 ∧
      (4 : Int) ∈ (openSerial closedPort osWriteFails freeWorld).2.2.openFds ∧
      (openSerial closedPort osWriteFails freeWorld).2.2.files.lookup
        (lockfilePath closedPort.port) = some []) := by
  decide

theorem lockDevice_keeps_fd (s : Serial) (os : OsOutcome) (w : World) :
    (_lockDevice s os w).2.1.fd = s.fd ∧
      ∀ fd ∈ w.openFds, fd ∈ (_lockDevice s os w).2.2.openFds := by
  unfold _lockDevice lockDevice_create
  simp only
  split
  · split
    · exact ⟨rfl, fun fd h => h⟩
    · split <;> split <;> try split
      all_goals exact ⟨rfl, fun fd h => by simp [h]⟩
  · split <;> try split
    all_goals exact ⟨rfl, fun fd h => by simp [h]⟩

theorem mem_removeFile (files : List (List Char × List Char)) (path : List Char)
    (e : List Char × List Char) (h : e ∈ removeFile files path) : e ∈ files :=
  (List.mem_filter.mp h).1

/-- What `lockDevice_create` leaves: no lock descriptor and an unchanged world when
the lock file cannot be opened; the lock descriptor and the lock file when the write
fails; success otherwise. -/
theorem lockDevice_create_cases (s : Serial) (os : OsOutcome) (w : World) :
    (os.lockOpen.value < 0 ∧ (lockDevice_create s os w).1 = -1 ∧
      (lockDevice_create s os w).2.1.lockfd = os.lockOpen.value ∧
      (lockDevice_create s os w).2.2 = w) ∨
    (0 ≤ os.lockOpen.value ∧ os.lockWrite.value < 0 ∧ (lockDevice_create s os w).1 = -1 ∧
      (lockDevice_create s os w).2.1.lockfd = os.lockOpen.value ∧
      (lockDevice_create s os w).2.1.lockfile = s.lockfile ∧
      os.lockOpen.value ∈ (lockDevice_create s os w).2.2.openFds ∧
      ((lockDevice_create s os w).2.2.files.lookup s.lockfile).isSome = true) ∨
    (lockDevice_create s os w).1 = 0 := by
  unfold lockDevice_create
  by_cases h1 : os.lockOpen.value < 0
  · left
    simp only [if_pos h1]
    exact ⟨h1, trivial, trivial, trivial⟩
  · by_cases h2 : os.lockWrite.value < 0
    · right; left
      simp only [if_neg h1, if_pos h2, lookup_writeFile]
      exact ⟨by omega, h2, trivial, trivial, trivial, List.mem_cons_self _ _, rfl⟩
    · right; right
      simp only [if_neg h1, if_neg h2]

/-- What `_lockDevice` leaves when it does not succeed. -/
theorem lockDevice_failure_cases (s : Serial) (os : OsOutcome) (w : World) :
    ((_lockDevice s os w).2.1.lockfd = s.lockfd ∧ (_lockDevice s os w).2.2 = w) ∨
    (os.lockOpen.value < 0 ∧ (_lockDevice s os w).2.1.lockfd = os.lockOpen.value ∧
      (∀ e ∈ (_lockDevice s os w).2.2.files, e ∈ w.files)) ∨
    (0 ≤ os.lockOpen.value ∧ os.lockWrite.value < 0 ∧
      (_lockDevice s os w).2.1.lockfd = os.lockOpen.value ∧
      os.lockOpen.value ∈ (_lockDevice s os w).2.2.openFds ∧
      ((_lockDevice s os w).2.2.files.lookup (_lockDevice s os w).2.1.lockfile).isSome
        = true) ∨
    (_lockDevice s os w).1 = 0 := by
  have key : ∀ (w1 : World), (∀ e ∈ w1.files, e ∈ w.files) →
      (os.lockOpen.value < 0 ∧
        (lockDevice_create ⟨s.port, s.baud, s.fd, s.lockfd, lockfilePath s.port⟩ os w1).2.1.lockfd
          = os.lockOpen.value ∧
        (∀ e ∈ (lockDevice_create ⟨s.port, s.baud, s.fd, s.lockfd, lockfilePath s.port⟩ os
          w1).2.2.files, e ∈ w.files)) ∨
      (0 ≤ os.lockOpen.value ∧ os.lockWrite.value < 0 ∧
        (lockDevice_create ⟨s.port, s.baud, s.fd, s.lockfd, lockfilePath s.port⟩ os w1).2.1.lockfd
          = os.lockOpen.value ∧
        os.lockOpen.value ∈ (lockDevice_create ⟨s.port, s.baud, s.fd, s.lockfd,
          lockfilePath s.port⟩ os w1).2.2.openFds ∧
        ((lockDevice_create ⟨s.port, s.baud, s.fd, s.lockfd, lockfilePath s.port⟩ os
          w1).2.2.files.lookup (lockDevice_create ⟨s.port, s.baud, s.fd, s.lockfd,
            lockfilePath s.port⟩ os w1).2.1.lockfile).isSome = true) ∨
      (lockDevice_create ⟨s.port, s.baud, s.fd, s.lockfd, lockfilePath s.port⟩ os w1).1
        = 0 := by
    intro w1 hsub
    rcases lockDevice_create_cases ⟨s.port, s.baud, s.fd, s.lockfd, lockfilePath s.port⟩ os w1
      with ⟨a1, _, a3, a4⟩ | ⟨b1, b2, _, b4, b5, b6, b7⟩ | c
    · left
      refine ⟨a1, a3, ?_⟩
      rw [a4]
      exact hsub
    · right; left
      refine ⟨b1, b2, b4, b6, ?_⟩
      rw [b5]
      exact b7
    · right; right
      exact c
  unfold _lockDevice
  simp only
  split
  · split
    · left
      exact ⟨rfl, rfl⟩
    · right
      split
      · exact key _ (fun e he => mem_removeFile _ _ e he)
      · exact key w (fun e he => he)
  · right
    exact key w (fun e he => he)

/-- C7 (amended): when `openSerial` fails on a connection that holds no lock handle,
(1) either the device could not be opened, and then `isOpen()` is false and the world
is as before; or the device was opened, and then `openSerial` has released nothing:
`isOpen()` is true, the device descriptor and every descriptor open before the call
are still open, and the device descriptor is closed by the next `closeSerial`;
(2) unless the lock file was opened and the write of the process identifier failed, no
lock handle is held afterwards and no file was created or changed; (3) if a lock
handle is held afterwards, the lock file was opened and the write failed: the lock
descriptor is open, the lock file is in place, and the next `closeSerial` closes the
one and unlinks the other. -/
theorem openSerial_failure_state (s : Serial) (os : OsOutcome) (w : World)
    (hclosed : s.lockfd < 0) (hfail : (openSerial s os w).1 ≠ 0) :
    ((os.devOpen.value < 0 ∧ isOpen (openSerial s os w).2.1 = false ∧
        (openSerial s os w).2.2 = w) ∨
      (0 ≤ os.devOpen.value ∧ isOpen (openSerial s os w).2.1 = true ∧
        (∀ fd ∈ os.devOpen.value :: w.openFds, fd ∈ (openSerial s os w).2.2.openFds) ∧
        SysCall.close os.devOpen.value ∈ (closeSerial (openSerial s os w).2.1).2.2)) ∧
    (os.lockOpen.value < 0 ∨ 0 ≤ os.lockWrite.value →
      (openSerial s os w).2.1.lockfd < 0 ∧
      ∀ e ∈ (openSerial s os w).2.2.files, e ∈ w.files) ∧
    (0 ≤ (openSerial s os w).2.1.lockfd →
      0 ≤ os.lockOpen.value ∧ os.lockWrite.value < 0 ∧
      (openSerial s os w).2.1.lockfd = os.lockOpen.value ∧
      os.lockOpen.value ∈ (openSerial s os w).2.2.openFds ∧
      ((openSerial s os w).2.2.files.lookup (openSerial s os w).2.1.lockfile).isSome = true ∧
      SysCall.close os.lockOpen.value ∈ (closeSerial (openSerial s os w).2.1).2.2 ∧
      SysCall.unlink (openSerial s os w).2.1.lockfile
        ∈ (closeSerial (openSerial s os w).2.1).2.2) := by
  -- the lock part: what is held and what was written
  have hlockpart : ((openSerial s os w).2.1.lockfd < 0 ∧
        ∀ e ∈ (openSerial s os w).2.2.files, e ∈ w.files) ∨
      (0 ≤ os.lockOpen.value ∧ os.lockWrite.value < 0 ∧
        (openSerial s os w).2.1.lockfd = os.lockOpen.value ∧
        os.lockOpen.value ∈ (openSerial s os w).2.2.openFds ∧
        ((openSerial s os w).2.2.files.lookup (openSerial s os w).2.1.lockfile).isSome
          = true) := by
    by_cases hopen : os.devOpen.value < 0
    · left
      simp only [openSerial, if_pos hopen]
      exact ⟨hclosed, fun e he => he⟩
    · by_cases htty : os.isatty ≠ 1
      · left
        simp only [openSerial, if_neg hopen, if_pos htty]
        exact ⟨hclosed, fun e he => he⟩
      · have hnz : (openSerial s os w).1 ≠ 0 := hfail
        have hl := lockDevice_failure_cases
          ⟨s.port, s.baud, os.devOpen.value, s.lockfd, s.lockfile⟩ os
          ⟨w.files, w.procs, w.pid, os.devOpen.value :: w.openFds, w.speed⟩
        simp only [openSerial, if_neg hopen, if_neg htty] at hnz ⊢
        by_cases hr : (_lockDevice ⟨s.port, s.baud, os.devOpen.value, s.lockfd, s.lockfile⟩ os
            ⟨w.files, w.procs, w.pid, os.devOpen.value :: w.openFds, w.speed⟩).1 ≠ 0
        · simp only [if_pos hr]
          rcases hl with ⟨a1, a2⟩ | ⟨b1, b2, b3⟩ | ⟨c1, c2, c3, c4, c5⟩ | d
          · left
            rw [a1, a2]
            exact ⟨hclosed, fun e he => he⟩
          · left
            rw [b2]
            exact ⟨b1, b3⟩
          · right
            exact ⟨c1, c2, c3, c4, c5⟩
          · exact absurd d hr
        · simp only [if_neg hr] at hnz
          exact absurd rfl hnz
  refine ⟨?_, ?_, ?_⟩
  · by_cases hopen : os.devOpen.value < 0
    · left
      refine ⟨hopen, ?_, ?_⟩
      · simp only [openSerial, hopen, if_true, isOpen]
        simpa using hopen
      · simp only [openSerial, hopen, if_true]
    · right
      have hfd : 0 ≤ os.devOpen.value := by omega
      have key : (openSerial s os w).2.1.fd = os.devOpen.value ∧
          ∀ fd ∈ os.devOpen.value :: w.openFds, fd ∈ (openSerial s os w).2.2.openFds := by
        by_cases htty : os.isatty ≠ 1
        · simp only [openSerial, if_neg hopen, if_pos htty]
          exact ⟨trivial, fun fd h => h⟩
        · have hl := lockDevice_keeps_fd
            ⟨s.port, s.baud, os.devOpen.value, s.lockfd, s.lockfile⟩ os
            ⟨w.files, w.procs, w.pid, os.devOpen.value :: w.openFds, w.speed⟩
          have hnz : (openSerial s os w).1 ≠ 0 := hfail
          simp only [openSerial, if_neg hopen, if_neg htty] at hnz ⊢
          by_cases hr : (_lockDevice ⟨s.port, s.baud, os.devOpen.value, s.lockfd, s.lockfile⟩ os
              ⟨w.files, w.procs, w.pid, os.devOpen.value :: w.openFds, w.speed⟩).1 ≠ 0
          · simp only [if_pos hr]
            exact hl
          · simp only [if_neg hr] at hnz
            exact absurd rfl hnz
      refine ⟨hfd, ?_, key.2, ?_⟩
      · simp only [isOpen, key.1]
        simpa using hfd
      · simp only [closeSerial, key.1, ge_iff_le, hfd, if_true]
        simp
  · intro hw
    rcases hlockpart with h | ⟨c1, c2, _⟩
    · exact h
    · exfalso
      rcases hw with h | h <;> omega
  · intro hheld
    rcases hlockpart with ⟨h, _⟩ | ⟨c1, c2, c3, c4, c5⟩
    · omega
    · refine ⟨c1, c2, c3, c4, c5, ?_, ?_⟩
      · simp only [closeSerial, c3, ge_iff_le, c1, if_true]
        simp
      · simp only [closeSerial, c3, ge_iff_le, c1, if_true]
        simp

/-- Witness for C7 (amended): the lock file is created as descriptor 4 and the write
of the process identifier fails. -/
theorem openSerial_failure_state_witness :
    ((osWriteFails.devOpen.value < 0 ∧
        isOpen (openSerial closedPort osWriteFails freeWorld).2.1 = false ∧
        (openSerial closedPort osWriteFails freeWorld).2.2 = freeWorld) ∨
      (0 ≤ osWriteFails.devOpen.value ∧
        isOpen (openSerial closedPort osWriteFails freeWorld).2.1 = true ∧
        (∀ fd ∈ osWriteFails.devOpen.value :: freeWorld.openFds,
          fd ∈ (openSerial closedPort osWriteFails freeWorld).2.2.openFds) ∧
        SysCall.close osWriteFails.devOpen.value
          ∈ (closeSerial (openSerial closedPort osWriteFails freeWorld).2.1).2.2)) ∧
    (osWriteFails.lockOpen.value < 0 ∨ 0 ≤ osWriteFails.lockWrite.value →
      (openSerial closedPort osWriteFails freeWorld).2.1.lockfd < 0 ∧
      ∀ e ∈ (openSerial closedPort osWriteFails freeWorld).2.2.files, e ∈ freeWorld.files) ∧
    (0 ≤ (openSerial closedPort osWriteFails freeWorld).2.1.lockfd →
      0 ≤ osWriteFails.lockOpen.value ∧ osWriteFails.lockWrite.value < 0 ∧
      (openSerial closedPort osWriteFails freeWorld).2.1.lockfd = osWriteFails.lockOpen.value ∧
      osWriteFails.lockOpen.value ∈ (openSerial closedPort osWriteFails freeWorld).2.2.openFds ∧
      ((openSerial closedPort osWriteFails freeWorld).2.2.files.lookup
        (openSerial closedPort osWriteFails freeWorld).2.1.lockfile).isSome = true ∧
      SysCall.close osWriteFails.lockOpen.value
        ∈ (closeSerial (openSerial closedPort osWriteFails freeWorld).2.1).2.2 ∧
      SysCall.unlink (openSerial closedPort osWriteFails freeWorld).2.1.lockfile
        ∈ (closeSerial (openSerial closedPort osWriteFails freeWorld).2.1).2.2) :=
  openSerial_failure_state closedPort osWriteFails freeWorld (by decide) (by decide)

/-- C8 (the code at the failing inputs): when the device cannot be opened (`ENOENT`,
2) `openSerial` returns the positive value 2; when the speed requests `TCGETS2` and
`TCSETS2` fail, `openSerial` returns 0 although the device did not get its speed, and
`setBaudrate` returns the positive value 25. -/
theorem open_and_baud_return_codes :
    (openSerial closedPort osNoDevice freeWorld).1 = 2 ∧
    (openSerial closedPort osSpeedFails freeWorld).1 = 0 ∧
    (openSerial closedPort osSpeedFails freeWorld).2.2.speed = none ∧
    (setBaudrate openPort 9600 osSpeedFails freeWorld).1 = 25 := by
  decide

/-! ## Synchronisation on the marker -/

theorem viable_ne_nil (b m : List Byte) (hm : m ≠ []) (hv : Viable b m) : b ≠ [] := by
  rcases hv with hv | ⟨_, hne⟩
  · intro hb
    rw [hb] at hv
    exact hm (List.prefix_nil.mp hv)
  · exact hne

theorem viable_of_append (b c m : List Byte) (hv : Viable (b ++ c) m) : b = [] ∨ Viable b m := by
  by_cases hb : b = []
  · exact Or.inl hb
  · right
    rcases hv with hv | ⟨hv, _⟩
    · rcases List.prefix_or_prefix_of_prefix hv (List.prefix_append b c) with h | h
      · exact Or.inl h
      · exact Or.inr ⟨h, hb⟩
    · exact Or.inr ⟨(List.prefix_append b c).trans hv, hb⟩

theorem suffix_append_cases (b x c : List Byte) (h : b <:+ x ++ c) :
    b <:+ c ∨ ∃ b0, b0 <:+ x ∧ b = b0 ++ c := by
  obtain ⟨t, ht⟩ := h
  rcases List.append_eq_append_iff.mp ht with ⟨a, h1, h2⟩ | ⟨a, h1, h2⟩
  · exact Or.inr ⟨a, ⟨t, h1.symm⟩, h2⟩
  · exact Or.inl ⟨a, h2.symm⟩

theorem longestViable_append (m x w c w1 : List Byte) (hx : LongestViable m x w)
    (hw : LongestViable m (w ++ c) w1) : LongestViable m (x ++ c) w1 := by
  obtain ⟨hx1, _, hx3⟩ := hx
  obtain ⟨hw1, hw2, hw3⟩ := hw
  have hsub : w ++ c <:+ x ++ c := by
    obtain ⟨t, ht⟩ := hx1
    exact ⟨t, by rw [← ht, List.append_assoc]⟩
  refine ⟨hw1.trans hsub, hw2, ?_⟩
  intro b hb hv
  apply hw3 b _ hv
  rcases suffix_append_cases b x c hb with h | ⟨b0, hb0, rfl⟩
  · exact h.trans (List.suffix_append w c)
  · rcases viable_of_append b0 c m hv with h0 | h0
    · rw [h0, List.nil_append]
      exact List.suffix_append w c
    · have hle := hx3 b0 hb0 h0
      obtain ⟨t, ht⟩ := List.suffix_of_suffix_length_le hb0 hx1 hle
      exact ⟨t, by rw [← ht, List.append_assoc]⟩

theorem longestViable_whole (m y : List Byte) (hv : y = [] ∨ Viable y m) :
    LongestViable m y y :=
  ⟨List.suffix_refl y, hv, fun _ hb _ => hb.length_le⟩

theorem longestViable_of_firstViable (m x : List Byte) (hm : m ≠ []) (r : Option Nat)
    (hr : FirstViable x m 0 r) :
    LongestViable m x (windowAt x r) := by
  have key : ∀ b, b <:+ x → Viable b m →
      0 < b.length ∧ b.length ≤ x.length ∧ b = x.drop (x.length - b.length) := by
    intro b hb hv
    have hne := viable_ne_nil b m hm hv
    exact ⟨List.length_pos.mpr hne, hb.length_le, List.suffix_iff_eq_drop.mp hb⟩
  cases r with
  | none =>
    refine ⟨List.nil_suffix, Or.inl rfl, ?_⟩
    intro b hb hv
    obtain ⟨h1, h2, h3⟩ := key b hb hv
    have hn : x.length - b.length < x.length := by omega
    rw [h3] at hv
    exact absurd hv (hr _ (Nat.zero_le _) hn)
  | some off =>
    obtain ⟨_, hoff, hv, hfirst⟩ := hr
    refine ⟨List.drop_suffix off x, Or.inr hv, ?_⟩
    intro b hb hvb
    obtain ⟨h1, h2, h3⟩ := key b hb hvb
    show b.length ≤ (x.drop off).length
    rw [List.length_drop]
    by_cases hle : b.length ≤ x.length - off
    · exact hle
    · exfalso
      have hn : x.length - b.length < off := by omega
      rw [h3] at hvb
      exact hfirst _ (Nat.zero_le _) hn hvb

theorem longestViable_locked (g m p done w : List Byte)
    (hg : ∀ n, n < g.length → ¬ m <+: (g ++ m).drop n)
    (hdone : done <+: g ++ m ++ p) (hw : LongestViable m done w) (hfull : m <+: w) :
    done = g ++ w := by
  obtain ⟨⟨t, ht⟩, _, hmax⟩ := hw
  obtain ⟨u, hu⟩ := hdone
  have hdl : done.length = t.length + w.length := by
    rw [← ht, List.length_append]
  have h1 : ¬ t.length < g.length := by
    intro hlt
    apply hg t.length hlt
    have e1 : (g ++ m ++ p).drop t.length = w ++ u := by
      rw [← hu, ← ht, List.append_assoc, List.drop_left]
    have e2 : (g ++ m ++ p).drop t.length = (g ++ m).drop t.length ++ p := by
      apply List.drop_append_of_le_length
      rw [List.length_append]; omega
    have p1 : m <+: (g ++ m ++ p).drop t.length := by
      rw [e1]; exact hfull.trans (List.prefix_append w u)
    have p2 : (g ++ m).drop t.length <+: (g ++ m ++ p).drop t.length := by
      rw [e2]; exact List.prefix_append _ _
    apply List.prefix_of_prefix_length_le p1 p2
    rw [List.length_drop, List.length_append]
    omega
  have h2 : ¬ g.length < t.length := by
    intro hlt
    have hb : done.drop g.length <:+ done := List.drop_suffix _ _
    have hbl : (done.drop g.length).length = done.length - g.length := List.length_drop _ _
    have e1 : (g ++ m ++ p).drop g.length = done.drop g.length ++ u := by
      rw [← hu]
      apply List.drop_append_of_le_length
      omega
    have e2 : (g ++ m ++ p).drop g.length = m ++ p := by
      rw [List.append_assoc, List.drop_left]
    have p1 : done.drop g.length <+: m ++ p := by
      rw [← e2, e1]; exact List.prefix_append _ _
    have hne : done.drop g.length ≠ [] := by
      intro hnil
      rw [hnil] at hbl
      simp at hbl
      omega
    have hv : Viable (done.drop g.length) m := by
      rcases List.prefix_or_prefix_of_prefix p1 (List.prefix_append m p) with h | h
      · exact Or.inr ⟨h, hne⟩
      · exact Or.inl h
    have := hmax _ hb hv
    omega
  have hlen : t.length = g.length := by omega
  have pt : t <+: g ++ m ++ p := ⟨w ++ u, by rw [← List.append_assoc, ht, hu]⟩
  have pg : g <+: g ++ m ++ p := ⟨m ++ p, by rw [List.append_assoc]⟩
  have htg : t = g :=
    (List.prefix_of_prefix_length_le pt pg (by omega)).eq_of_length hlen
  rw [← ht, htg]

theorem locked_content (g m p w : List Byte) (len : Nat) (hdone : g ++ w <+: g ++ m ++ p)
    (hl : len ≤ w.length) : w.take len = (m ++ p).take len := by
  rw [List.append_assoc, List.prefix_append_right_inj] at hdone
  have := List.prefix_iff_eq_take.mp hdone
  rw [this, List.take_take, Nat.min_eq_left hl]

theorem take_min_length (l : List Byte) (n : Nat) : l.take (min l.length n) = l.take n := by
  rcases Nat.le_total l.length n with h | h
  · rw [Nat.min_eq_left h, List.take_length, List.take_of_length_le h]
  · rw [Nat.min_eq_right h]

/-- One iteration on a data chunk keeps the window the longest viable suffix of the
bytes read so far, as long as the chunk is not cut on a false start. -/
theorem nreceive_peek_data_sync (len_dest : Nat) (m dest : List Byte) (nread : Nat)
    (c done : List Byte) (hm : m ≠ []) (hk : m.length ≤ len_dest)
    (hd : dest.length = len_dest) (hn : nread < len_dest)
    (hlvs : LongestViable m done (dest.take nread)) (hc : c ≠ [])
    (hfit : nread ≠ 0 → ¬ m <+: dest.take nread ++ c → nread + c.length ≤ len_dest) :
    ∃ d n w, nreceive_peek_data len_dest m m.length dest nread c = some (d, n) ∧
      LongestViable m (done ++ c) w ∧ n = min w.length len_dest ∧
      d.take n = w.take len_dest ∧ d.length = len_dest := by
  have hcpos : 0 < c.length := List.length_pos.mpr hc
  have hwl : (dest.take nread).length = nread := by rw [List.length_take]; omega
  unfold nreceive_peek_data
  by_cases h0 : nread = 0
  · have hl0 : LongestViable m done [] := by
      rw [h0, List.take_zero] at hlvs; exact hlvs
    simp only [h0, if_true]
    obtain ⟨r, hr, hspec⟩ :=
      find_sequence_nat_spec c c.length m m.length (Nat.le_refl _) (Nat.le_refl _)
    rw [List.take_length, List.take_length] at hspec
    rw [hr]
    have hlc := longestViable_of_firstViable m c hm r hspec
    have hnew := longestViable_append m done [] c _ hl0 (by rw [List.nil_append]; exact hlc)
    cases r with
    | none => exact ⟨dest, 0, [], rfl, hnew, by simp, by simp, hd⟩
    | some off =>
      obtain ⟨_, hoff, _, _⟩ := hspec
      have h1 : 0 + min (c.length - off) len_dest ≤ dest.length := by omega
      have h2 : off + min (c.length - off) len_dest ≤ c.length := by omega
      simp only [memcpy_eq dest 0 c off _ h1 h2]
      refine ⟨_, _, c.drop off, rfl, hnew, ?_, ?_, ?_⟩
      · rw [List.length_drop]; omega
      · have hl : ((c.drop off).take (min (c.length - off) len_dest)).length
            = 0 + min (c.length - off) len_dest := by
          rw [List.length_take, List.length_drop]; omega
        rw [List.take_zero, List.nil_append, List.take_left' hl]
        have := take_min_length (c.drop off) len_dest
        rw [List.length_drop] at this
        exact this
      · rw [memcpy_length dest 0 c off _ h1 h2, hd]
  · simp only [h0, if_false]
    have h1 : nread + min c.length (len_dest - nread) ≤ dest.length := by omega
    have h2 : 0 + min c.length (len_dest - nread) ≤ c.length := by omega
    simp only [memcpy_eq dest nread c 0 _ h1 h2]
    have hl1 := memcpy_length dest nread c 0 _ h1 h2
    have htk := splice_take dest (c.take (min c.length (len_dest - nread))) nread (by
      rw [List.length_take]; omega)
    have hctl : (c.take (min c.length (len_dest - nread))).length
        = min c.length (len_dest - nread) := by
      rw [List.length_take]; omega
    rw [hctl] at htk
    simp only [List.drop_zero] at hl1 ⊢
    generalize hd1 : dest.take nread ++ c.take (min c.length (len_dest - nread))
      ++ dest.drop (nread + min c.length (len_dest - nread)) = d1 at hl1 htk ⊢
    have hcmp : memcmp_ne m d1 m.length = some (decide (m ≠ d1.take m.length)) := by
      unfold memcmp_ne
      rw [if_pos ⟨Nat.le_refl _, by omega⟩, List.take_length]
    rw [hcmp]
    -- a chunk that overflows the destination completes the window to the whole marker
    have hcut : ¬ nread + c.length ≤ len_dest → m <+: dest.take nread ++ c := by
      intro htr
      by_contra hnp
      exact htr (hfit h0 hnp)
    have htrunc : ¬ nread + c.length ≤ len_dest → m = d1.take m.length := by
      intro htr
      have hpre := hcut htr
      have hmin : min c.length (len_dest - nread) = len_dest - nread := by omega
      have e1 : d1.take m.length
          = (d1.take (nread + min c.length (len_dest - nread))).take m.length := by
        rw [List.take_take, Nat.min_eq_left (by omega)]
      have e2 : dest.take nread ++ c.take (len_dest - nread)
          = (dest.take nread ++ c).take len_dest := by
        rw [List.take_append_eq_append_take, hwl,
          List.take_of_length_le (l := dest.take nread) (by rw [hwl]; omega)]
      rw [e1, htk, hmin, e2, List.take_take, Nat.min_eq_left hk]
      exact List.prefix_iff_eq_take.mp hpre
    by_cases heq : m = d1.take m.length
    · have hdec : decide (m ≠ d1.take m.length) = false :=
        decide_eq_false (not_not.mpr heq)
      rw [hdec]
      by_cases htr : nread + c.length ≤ len_dest
      · have hmin : min c.length (len_dest - nread) = c.length := by omega
        rw [hmin, List.take_length] at htk
        rw [hmin]
        have hv : Viable (dest.take nread ++ c) m := by
          by_cases hkn : m.length ≤ nread + c.length
          · left
            have e : m = (dest.take nread ++ c).take m.length := by
              rw [← htk, List.take_take, Nat.min_eq_left hkn]
              exact heq
            rw [e]
            exact List.take_prefix _ _
          · right
            refine ⟨?_, ?_⟩
            · have e : dest.take nread ++ c = m.take (nread + c.length) := by
                rw [heq, List.take_take, Nat.min_eq_left (by omega)]
                exact htk.symm
              rw [e]
              exact List.take_prefix _ _
            · intro hnil
              have := congrArg List.length hnil
              simp only [List.length_append, List.length_nil, hwl] at this
              omega
        refine ⟨d1, _, dest.take nread ++ c, rfl,
          longestViable_append m done _ c _ hlvs (longestViable_whole m _ (Or.inr hv)),
          ?_, ?_, by omega⟩
        · simp only [List.length_append, hwl]; omega
        · rw [htk]
          symm
          apply List.take_of_length_le
          rw [List.length_append, hwl]; omega
      · have hmin : min c.length (len_dest - nread) = len_dest - nread := by omega
        rw [hmin] at htk
        rw [hmin]
        have hv : Viable (dest.take nread ++ c) m := Or.inl (hcut htr)
        refine ⟨d1, _, dest.take nread ++ c, rfl,
          longestViable_append m done _ c _ hlvs (longestViable_whole m _ (Or.inr hv)),
          ?_, ?_, by omega⟩
        · simp only [List.length_append, hwl]; omega
        · rw [htk, List.take_append_eq_append_take, hwl]
          rw [List.take_of_length_le (l := dest.take nread) (by rw [hwl]; omega)]
    · have htr : nread + c.length ≤ len_dest := by
        by_contra hcon
        exact heq (htrunc hcon)
      have hmin : min c.length (len_dest - nread) = c.length := by omega
      rw [hmin, List.take_length] at htk
      rw [hmin]
      have hdec : decide (m ≠ d1.take m.length) = true := decide_eq_true heq
      rw [hdec]
      obtain ⟨r, hr, hspec⟩ :=
        find_sequence_nat_spec d1 (nread + c.length) m m.length (by omega) (Nat.le_refl _)
      rw [htk, List.take_length] at hspec
      rw [hr]
      have hlw := longestViable_of_firstViable m _ hm r hspec
      have hnew := longestViable_append m done _ c _ hlvs hlw
      cases r with
      | none => exact ⟨d1, 0, [], rfl, hnew, by simp, by simp, by omega⟩
      | some off =>
        obtain ⟨_, hoff, _, _⟩ := hspec
        simp only [List.length_append, hwl] at hoff
        have h3 : 0 + (nread + c.length - off) ≤ d1.length := by omega
        have h4 : off + (nread + c.length - off) ≤ d1.length := by omega
        simp only [memcpy_eq d1 0 d1 off _ h3 h4]
        refine ⟨_, _, (dest.take nread ++ c).drop off, rfl, hnew, ?_, ?_, ?_⟩
        · simp only [List.length_drop, List.length_append, hwl]; omega
        · have hl : ((d1.drop off).take (nread + c.length - off)).length
              = nread + c.length - off := by
            rw [List.length_take, List.length_drop]; omega
          have e : (dest.take nread ++ c).drop off
              = (d1.drop off).take (nread + c.length - off) := by
            rw [← htk, List.drop_take]
          rw [List.take_zero, List.nil_append, List.take_left' hl, e]
          symm
          apply List.take_of_length_le
          rw [hl]; omega
        · rw [memcpy_length d1 0 d1 off _ h3 h4]; omega

theorem nreceive_peek_loop_full (len_dest : Nat) (peek : List Byte) (peek_len : Nat)
    (timeout : Int) (script : List ReadEvent) (s : Serial) (sys : List SysCall)
    (dest : List Byte) (nread : Nat) (h : ¬ nread < len_dest) :
    nreceive_peek_loop len_dest peek peek_len timeout script s sys dest nread
      = some ⟨Outcome.returned nread, dest, nread, s, sys⟩ := by
  cases script with
  | nil => rw [nreceive_peek_loop, if_neg h]
  | cons ev rest => cases ev <;> rw [nreceive_peek_loop, if_neg h]

theorem longestViable_window (m x : List Byte) (hm : m ≠ []) :
    LongestViable m x (window m x) :=
  longestViable_of_firstViable m x hm _ (find_sequence_ref_firstViable x m hm)

theorem longestViable_unique (m x w1 w2 : List Byte)
    (h1 : LongestViable m x w1) (h2 : LongestViable m x w2) : w1 = w2 := by
  have hle : ∀ a b : List Byte, LongestViable m x a → LongestViable m x b →
      a.length ≤ b.length := by
    intro a b ha hb
    rcases ha.2.1 with h | h
    · rw [h]; exact Nat.zero_le _
    · exact hb.2.2 a ha.1 h
  have hl : w1.length = w2.length :=
    Nat.le_antisymm (hle w1 w2 h1 h2) (hle w2 w1 h2 h1)
  exact (List.suffix_of_suffix_length_le h1.1 h2.1 (by omega)).eq_of_length hl

theorem nreceive_peek_loop_sync (len_dest : Nat) (g m p : List Byte) (timeout : Int)
    (hm : m ≠ []) (hg : ∀ n, n < g.length → ¬ m <+: (g ++ m).drop n)
    (hk : m.length ≤ len_dest) (hp : len_dest ≤ m.length + p.length) (ht : timeout < 0) :
    ∀ (script : List ReadEvent) (s : Serial) (sys : List SysCall) (dest : List Byte)
      (nread : Nat) (done : List Byte),
      (∀ ev ∈ script, Benign ev) →
      NoCutOnFalseStart len_dest m done script →
      done ++ stream script = g ++ m ++ p → dest.length = len_dest → nread < len_dest →
      LongestViable m done (dest.take nread) →
      ∃ res, nreceive_peek_loop len_dest m m.length timeout script s sys dest nread = some res ∧
        res.outcome = Outcome.returned len_dest ∧
        res.dest.take len_dest = (m ++ p).take len_dest := by
  intro script
  induction script with
  | nil =>
    intro s sys dest nread done _ _ hs hd hn hlvs
    exfalso
    simp only [stream, List.append_nil] at hs
    have hsuf : m ++ p <:+ done := ⟨g, by rw [hs, List.append_assoc]⟩
    have := hlvs.2.2 (m ++ p) hsuf (Or.inl (List.prefix_append m p))
    rw [List.length_append, List.length_take] at this
    omega
  | cons ev rest ih =>
    intro s sys dest nread done hb hc hs hd hn hlvs
    have hbt : ∀ e ∈ rest, Benign e := fun e he => hb e (List.mem_cons_of_mem _ he)
    have hbe : Benign ev := hb ev (List.mem_cons_self _ _)
    cases ev with
    | fail errno expired =>
      have he : errno = EAGAIN := hbe
      have hnt : ¬ (timeout = 0 ∨ (timeout > 0 ∧ expired = true)) := by
        rintro (h | ⟨h, _⟩) <;> omega
      rw [nreceive_peek_loop, if_pos hn, if_pos he, if_neg hnt]
      exact ih s sys dest nread done hbt hc hs hd hn hlvs
    | bytes c =>
      have hcne : c ≠ [] := hbe
      have hc0 : ¬ c.length = 0 := fun h => hcne (List.length_eq_zero.mp h)
      obtain ⟨hchunk, hct⟩ := hc
      have hwin : window m done = dest.take nread :=
        longestViable_unique m done _ _ (longestViable_window m done hm) hlvs
      have hwl : (dest.take nread).length = nread := by
        rw [List.length_take]; omega
      have hfit : nread ≠ 0 → ¬ m <+: dest.take nread ++ c → nread + c.length ≤ len_dest := by
        intro h0 hnp
        rw [hwin, hwl] at hchunk
        apply hchunk _ hnp
        intro hnil
        rw [hnil] at hwl
        exact h0 hwl.symm
      simp only [stream] at hs
      rw [← List.append_assoc] at hs
      obtain ⟨d, n, w, hstep, hnew, hnw, hdw, hdl⟩ :=
        nreceive_peek_data_sync len_dest m dest nread c done hm hk hd hn hlvs hcne hfit
      rw [nreceive_peek_loop, if_pos hn, if_neg hc0, hstep]
      simp only
      by_cases hfull : n < len_dest
      · have hwn : w.length = n := by omega
        have hdw2 : d.take n = w := by
          rw [hdw, List.take_of_length_le (by omega)]
        exact ih s sys d n (done ++ c) hbt hct hs hdl hfull (by rw [hdw2]; exact hnew)
      · have hnl : n = len_dest := by omega
        have hwl2 : len_dest ≤ w.length := by omega
        rw [nreceive_peek_loop_full len_dest m m.length timeout rest s sys d n hfull]
        refine ⟨_, rfl, by rw [hnl], ?_⟩
        simp only
        have hwv : Viable w m := by
          rcases hnew.2.1 with h | h
          · rw [h] at hwl2
            simp at hwl2
            omega
          · exact h
        have hpre := viable_full w m hwv (by omega)
        have hdone : done ++ c <+: g ++ m ++ p := ⟨stream rest, hs⟩
        have hlock := longestViable_locked g m p (done ++ c) w hg hdone hnew hpre
        rw [hlock] at hdone
        rw [← hnl, hdw, hnl]
        exact locked_content g m p w len_dest hdone hwl2

end Benewake
